import Mathlib

/-!
# Verification of the hybrid movie recommender (src/app.py)

Shallow embedding of the core of src/app.py: the hybrid_recommend
function (lines 113-138) and its helpers.  Score values are modelled as
rationals; the IEEE NaN produced by pandas float division 0.0/0.0 is
modelled by Option with none standing for NaN (the only division in
the program is min-max scaling, whose numerators are all zero exactly when
its denominator is zero, so every division by zero in the program is 0/0,
that is NaN).  Arithmetic on such values propagates NaN exactly as IEEE
does for these operations (x + NaN = NaN, c * NaN = NaN, also 0 * NaN).

The pandas pieces are modelled as follows, each noted at its definition:
* a DataFrame row index is the list of positions 0..n-1 (withLabels),
  as produced for movies2.csv by pd.read_csv;
* preds_df.loc of a user id is an association-list lookup (first match),
  raising KeyError when absent;
* Series.reindex with fill_value 0 keeps the value of present labels
  and fills 0 for absent ones;
* Series.sort_values with ascending False (pandas nargsort) reverses the
  non-NaN entries, stable-ascending-argsorts the reversed sequence,
  reverses the resulting indexer back, and appends the NaN entries in
  original order (default na_position last); the double reversal around
  the stable argsort makes the descending sort stable, so entries with
  equal defined scores keep their original catalog order;
* building pd.Series from values and an index of a different length
  raises ValueError.

Raised Python exceptions are modelled by Except.error with a PyError
naming the exception class.
-/

namespace MovieRec

/-- A row of the movie catalog movies2.csv: columns id, title, and the
derived genres_list (src/app.py lines 29-37). -/
structure Movie where
  id : Int
  title : String
  genres : List String
deriving DecidableEq

/-- A row of the DataFrame returned by hybrid_recommend
(columns title, poster, trailer, hybrid_score, id). -/
structure RecRow where
  title : String
  poster : Option String
  trailer : Option String
  hybrid_score : Option ℚ
  id : Int
deriving DecidableEq

/-- Python exceptions that the code in hybrid_recommend can raise:
KeyError from the preds_df.loc lookup, IndexError from indexing an
empty selection or a numpy row out of range, ValueError from building a
pd.Series over an index whose length differs from the data length. -/
inductive PyError where
  | keyError
  | indexError
  | valueError
deriving DecidableEq

/-- A float score: none is IEEE NaN, some q a finite value. -/
abbrev F := Option ℚ

/-- Float addition with NaN propagation. -/
def fadd : F → F → F
  | some a, some b => some (a + b)
  | _, _ => none

/-- Multiplication of a float score by a finite scalar, with NaN
propagation (IEEE: c * NaN = NaN, also for c = 0). -/
def smul (c : ℚ) : F → F
  | some b => some (c * b)
  | none => none

/-- Minimum of a list of scores (Series.min / ndarray.min);
0 as the (never used) value on the empty list. -/
def vMin : List ℚ → ℚ
  | [] => 0
  | [x] => x
  | x :: y :: xs => min x (vMin (y :: xs))

/-- Maximum of a list of scores (Series.max / ndarray.max). -/
def vMax : List ℚ → ℚ
  | [] => 0
  | [x] => x
  | x :: y :: xs => max x (vMax (y :: xs))

/-- Min-max scaling (v - v.min()) / (v.max() - v.min()) as written at
src/app.py lines 123 and 128, elementwise over the whole vector.  When
max = min every numerator x - min is zero (all elements are equal), so
every element is the float 0.0/0.0, that is NaN: the code has no guard. -/
def minmaxNorm (v : List ℚ) : List F :=
  v.map (fun x =>
    if vMax v = vMin v then none else some ((x - vMin v) / (vMax v - vMin v)))

/-- Attach index labels n, n+1, ... to a list (a pandas RangeIndex). -/
def withLabelsFrom (n : Nat) : List α → List (Nat × α)
  | [] => []
  | a :: l => (n, a) :: withLabelsFrom (n + 1) l

/-- The catalog DataFrame: rows of movies2.csv with index 0..n-1. -/
def withLabels (l : List α) : List (Nat × α) := withLabelsFrom 0 l

/-- Genre filtering, src/app.py lines 114-117: when the (module-global)
genre multiselect is non-empty, keep the rows having at least one selected
genre; otherwise the whole catalog.  Row labels are preserved. -/
def candidates (selected_genres : List String) (movies_df : List Movie) :
    List (Nat × Movie) :=
  if selected_genres.isEmpty then withLabels movies_df
  else (withLabels movies_df).filter
    (fun p => selected_genres.any (fun g => p.2.genres.contains g))

/-- Normalization of the CF row of the user over the whole row
(src/app.py line 123): labels keep their place, values are min-max scaled
over all of the values in the row. -/
def normRow (row : List (Nat × ℚ)) : List (Nat × F) :=
  (row.map Prod.fst).zip (minmaxNorm (row.map Prod.snd))

/-- Value of the reindexed normalized CF row at one candidate label
(src/app.py line 124): the normalized CF score when the label is present
in the row, else the fill value, the float 0. -/
def cfVal (row : List (Nat × ℚ)) (i : Nat) : F :=
  match (normRow row).find? (fun p => p.1 == i) with
  | some p => p.2
  | none => some 0

/-- Reindexing cf_norm onto the candidate index with fill value 0
(src/app.py line 124). -/
def alignCf (row : List (Nat × ℚ)) (labels : List Nat) : List (Nat × F) :=
  labels.map (fun i => (i, cfVal row i))

/-- The blended score series over the candidate index, src/app.py
line 131: alpha * cf_norm + (1 - alpha) * content_norm elementwise, where
content_norm is the full similarity row min-max normalized (line 128) laid
over the candidate labels positionally (line 129). -/
def hybridSeries (alpha : ℚ) (row : List (Nat × ℚ)) (labels : List Nat)
    (simRow : List ℚ) : List (Nat × F) :=
  List.zipWith (fun a b => (a.1, fadd (smul alpha a.2) (smul (1 - alpha) b.2)))
    (alignCf row labels) (labels.zip (minmaxNorm simRow))

/-- Ascending comparison on the score component, the key order used by
sort_values. -/
def keyLe (a b : Nat × ℚ) : Prop := a.2 ≤ b.2

instance : DecidableRel keyLe := fun a b => inferInstanceAs (Decidable (a.2 ≤ b.2))

/-- Sorting hybrid_scores descending (src/app.py line 133): pandas
nargsort reverses the non-NaN entries, stable-ascending-argsorts the
reversed sequence, reverses the resulting indexer back, and appends the
NaN entries in original order (na_position last).  The double reversal
around the stable argsort makes the descending sort stable: entries with
equal defined scores keep their original catalog order. -/
def sortDescNaLast (l : List (Nat × F)) : List (Nat × F) :=
  ((List.insertionSort keyLe
      ((l.filterMap (fun p => p.2.map (fun v => (p.1, v)))).reverse)).reverse.map
    (fun p => (p.1, some p.2)))
  ++ l.filter (fun p => p.2.isNone)

/-- Row selection by label plus the hybrid_score, poster and trailer
column assignments (src/app.py lines 134-138): for each selected label,
fetch the candidate row by label (KeyError if absent, which cannot happen
here since the labels come from the candidate index) and build the output
row, calling the poster and trailer fetchers on the movie id. -/
def mapLoc (fp ft : Int → Option String) (filtered : List (Nat × Movie)) :
    List (Nat × F) → Except PyError (List RecRow)
  | [] => .ok []
  | (i, s) :: rest =>
    match filtered.find? (fun p => p.1 == i) with
    | none => .error .keyError
    | some pm =>
      (mapLoc fp ft filtered rest).map
        (fun tl => ⟨pm.2.title, fp pm.2.id, ft pm.2.id, s, pm.2.id⟩ :: tl)

/-- The hybrid recommendation function, src/app.py lines 113-138.

Besides the explicit parameters of the Python function it takes:
* selected_genres, modelling the module-level Streamlit multiselect that
  line 114 reads — a global the function depends on, not a parameter;
* fetch_poster and fetch_trailer, modelling the memoized network
  fetchers called at lines 136-137 inside the function.

The result is the returned DataFrame as a list of rows, or the Python
exception the code raises. -/
def hybrid_recommend (selected_genres : List String)
    (fetch_poster fetch_trailer : Int → Option String)
    (user_id : Nat) (movie_title : String)
    (movies_df : List Movie)
    (preds_df : List (Nat × List (Nat × ℚ)))
    (similarity : List (List ℚ))
    (top_n : Nat) (alpha : ℚ) : Except PyError (List RecRow) :=
  -- lines 114-117: genre filtering (reads the global selected_genres)
  let filtered : List (Nat × Movie) := candidates selected_genres movies_df
  -- lines 119-120: seed title not among the candidates: empty DataFrame
  if ¬ (filtered.any (fun p => p.2.title == movie_title)) then .ok []
  else
    -- line 122: the preds_df.loc row lookup, KeyError when absent
    match preds_df.find? (fun r => r.1 == user_id) with
    | none => .error .keyError
    | some urow =>
      -- line 126: first candidate row whose title matches
      match filtered.find? (fun p => p.2.title == movie_title) with
      | none => .error .indexError
      | some seed =>
        -- line 127: the full catalog-length similarity row at the seed
        match similarity.get? seed.1 with
        | none => .error .indexError
        | some simRow =>
          -- line 129: laying the normalized full row over the candidate
          -- index raises ValueError when the lengths differ
          if filtered.length = (minmaxNorm simRow).length then
            -- lines 123-124, 128, 131: the blended series
            let hybrid : List (Nat × F) :=
              hybridSeries alpha urow.2 (filtered.map Prod.fst) simRow
            -- line 133: sort descending (NaN last), take top_n
            -- lines 134-138: build the output rows
            mapLoc fetch_poster fetch_trailer filtered
              ((sortDescNaLast hybrid).take top_n)
          else .error .valueError

/-- The ranking-relevant content of an output row: title, blended score
and movie id — everything except the enrichment columns. -/
def stripRow (r : RecRow) : String × Option ℚ × Int :=
  (r.title, r.hybrid_score, r.id)

/-- Modelled from the spec (Hybrid Ranker algorithm, step 4): CF
alignment the way the specification states it — first align the raw CF
row to the candidate set (each candidate keeps its raw CF score if
present, absent candidates get 0), then min-max normalize that aligned
candidate-length vector.  This is NOT what the code does; it is defined
only to be compared against alignCf, the embedding of the code. -/
def alignThenNormCfSpec (row : List (Nat × ℚ)) (labels : List Nat) :
    List (Nat × F) :=
  labels.zip (minmaxNorm (labels.map (fun i =>
    match row.find? (fun p => p.1 == i) with
    | some p => p.2
    | none => 0)))

/-- Lexicographic ascending order on scores with ties in descending label
order.  On lists whose labels are strictly DECREASING (such as the
reversed candidate series), the stable ascending sort by score alone (the
numpy argsort) coincides with sorting by this order. -/
def lexLe (a b : Nat × ℚ) : Prop := a.2 < b.2 ∨ (a.2 = b.2 ∧ b.1 ≤ a.1)

instance : DecidableRel lexLe := fun a b =>
  inferInstanceAs (Decidable (a.2 < b.2 ∨ (a.2 = b.2 ∧ b.1 ≤ a.1)))

instance : IsTotal (Nat × ℚ) lexLe where
  total a b := by
    rcases lt_trichotomy a.2 b.2 with h | h | h
    · exact Or.inl (Or.inl h)
    · rcases Nat.le_total b.1 a.1 with h2 | h2
      · exact Or.inl (Or.inr ⟨h, h2⟩)
      · exact Or.inr (Or.inr ⟨h.symm, h2⟩)
    · exact Or.inr (Or.inl h)

instance : IsTrans (Nat × ℚ) lexLe where
  trans a b c hab hbc := by
    rcases hab with h1 | ⟨h1, h1n⟩
    · rcases hbc with h2 | ⟨h2, _⟩
      · exact Or.inl (lt_trans h1 h2)
      · exact Or.inl (h2 ▸ h1)
    · rcases hbc with h2 | ⟨h2, h2n⟩
      · exact Or.inl (h1 ▸ h2)
      · exact Or.inr ⟨h1.trans h2, le_trans h2n h1n⟩

/-- The total order in which sortDescNaLast emits its entries: defined
scores first, descending, ties between equal defined scores in ascending
label order (the stable descending sort keeps ties in original catalog
order), then the NaN entries in ascending label order (their original
order, na_position last). -/
def recPrec : (Nat × F) → (Nat × F) → Prop
  | (i, some a), (j, some b) => b < a ∨ (b = a ∧ i ≤ j)
  | (_, some _), (_, none) => True
  | (_, none), (_, some _) => False
  | (i, none), (j, none) => i ≤ j

/-- Weak descending order on scores with NaN sorted last: what remains of
recPrec after forgetting the labels. -/
def scoreGe : F → F → Prop
  | some a, some b => b ≤ a
  | some _, none => True
  | none, some _ => False
  | none, none => True

/-- Position of the entry with a given label in a score series (the rank
of that candidate in a sorted series). -/
def labelPos (i : Nat) (m : List (Nat × F)) : Nat :=
  m.findIdx (fun p => p.1 == i)

/-- The output row that mapLoc builds for one entry of the sorted score
series (total version; the fallback branch is unreachable whenever mapLoc
succeeds). -/
def locRow (fp ft : Int → Option String) (filtered : List (Nat × Movie))
    (p : Nat × F) : RecRow :=
  match filtered.find? (fun q => q.1 == p.1) with
  | some pm => ⟨pm.2.title, fp pm.2.id, ft pm.2.id, p.2, pm.2.id⟩
  | none => ⟨"", none, none, p.2, 0⟩

end MovieRec

namespace MovieRec

/-! ## Elementary facts about the normalizer -/

theorem vMin_le_of_mem : ∀ {v : List ℚ} {x : ℚ}, x ∈ v → vMin v ≤ x
  | [], x, h => absurd h (List.not_mem_nil x)
  | [a], x, h => by
      rcases List.mem_singleton.mp h with rfl
      exact le_refl _
  | a :: b :: t, x, h => by
      rcases List.mem_cons.mp h with rfl | h2
      · exact min_le_left _ _
      · exact le_trans (min_le_right _ _) (vMin_le_of_mem h2)

theorem le_vMax_of_mem : ∀ {v : List ℚ} {x : ℚ}, x ∈ v → x ≤ vMax v
  | [], x, h => absurd h (List.not_mem_nil x)
  | [a], x, h => by
      rcases List.mem_singleton.mp h with rfl
      exact le_refl _
  | a :: b :: t, x, h => by
      rcases List.mem_cons.mp h with rfl | h2
      · exact le_max_left _ _
      · exact le_trans (le_vMax_of_mem h2) (le_max_right _ _)

theorem vMin_le_vMax {v : List ℚ} (h : v ≠ []) : vMin v ≤ vMax v := by
  match v, h with
  | a :: t, _ =>
    exact le_trans (vMin_le_of_mem (List.mem_cons_self a t))
      (le_vMax_of_mem (List.mem_cons_self a t))

theorem minmaxNorm_length (v : List ℚ) : (minmaxNorm v).length = v.length := by
  simp [minmaxNorm]

theorem mem_minmaxNorm_of_const {v : List ℚ} (hc : vMax v = vMin v) {x : F}
    (h : x ∈ minmaxNorm v) : x = none := by
  simp only [minmaxNorm, if_pos hc, List.mem_map] at h
  obtain ⟨y, _, rfl⟩ := h
  rfl

theorem mem_minmaxNorm_of_ne {v : List ℚ} (hc : vMax v ≠ vMin v) {x : F}
    (h : x ∈ minmaxNorm v) : ∃ q, x = some q ∧ 0 ≤ q ∧ q ≤ 1 := by
  simp only [minmaxNorm, if_neg hc, List.mem_map] at h
  obtain ⟨y, hy, rfl⟩ := h
  have hne : v ≠ [] := by rintro rfl; exact List.not_mem_nil y hy
  have hlt : vMin v < vMax v := lt_of_le_of_ne (vMin_le_vMax hne) (Ne.symm hc)
  have hpos : 0 < vMax v - vMin v := sub_pos.mpr hlt
  refine ⟨_, rfl, div_nonneg (sub_nonneg.mpr (vMin_le_of_mem hy)) (le_of_lt hpos), ?_⟩
  rw [div_le_one hpos]
  exact sub_le_sub_right (le_vMax_of_mem hy) _

/-- C1 (amended): the min-max normalization the ranker uses maps every
element of a non-empty non-constant vector to a defined value in the unit
interval, but on a constant vector (max = min, including the
single-element and all-zero cases) every output element is NaN (the float
0.0/0.0) — not zero. -/
theorem minmaxNorm_unit_range_or_nan (v : List ℚ) (_hne : v ≠ []) :
    (vMax v = vMin v → ∀ x ∈ minmaxNorm v, x = none) ∧
    (vMax v ≠ vMin v → ∀ x ∈ minmaxNorm v, ∃ q, x = some q ∧ 0 ≤ q ∧ q ≤ 1) := by
  refine ⟨fun hc x hx => mem_minmaxNorm_of_const hc hx,
    fun hc x hx => mem_minmaxNorm_of_ne hc hx⟩

/-- Witness for minmaxNorm_unit_range_or_nan at the vector [0, 2]. -/
theorem minmaxNorm_unit_range_or_nan_witness :
    vMax [(0:ℚ), 2] ≠ vMin [(0:ℚ), 2] ∧
    ∀ x ∈ minmaxNorm [(0:ℚ), 2], ∃ q, x = some q ∧ 0 ≤ q ∧ q ≤ 1 := by
  refine ⟨by norm_num [vMax, vMin], ?_⟩
  exact (minmaxNorm_unit_range_or_nan [0, 2] (by simp)).2 (by norm_num [vMax, vMin])

/-- C1 (counterexample): on the constant vector [2, 2] the normalization
of the code returns the NaN vector, not the zero vector the claim
states. -/
theorem minmaxNorm_constant_is_nan_not_zero :
    minmaxNorm [(2:ℚ), 2] = [none, none] ∧
    minmaxNorm [(2:ℚ), 2] ≠ [some 0, some 0] := by
  have h1 : minmaxNorm [(2:ℚ), 2] = [none, none] := by
    norm_num [minmaxNorm, vMax, vMin]
  exact ⟨h1, by rw [h1]; simp⟩

end MovieRec

namespace MovieRec

/-! ## The CF alignment (C2) -/

/-- C2 (amended): the code normalizes the CF row over the whole user row
first (line 123) and only then aligns it to the candidate index with fill
value 0 (line 124); consequently every aligned entry is either NaN (the
user row was constant) or a defined value in the unit interval, but the
aligned vector need not attain 0 or 1 over the candidates. -/
theorem alignCf_entry_nan_or_unit (row : List (Nat × ℚ)) (labels : List Nat)
    (p : Nat × F) (hp : p ∈ alignCf row labels) :
    p.2 = none ∨ ∃ q, p.2 = some q ∧ 0 ≤ q ∧ q ≤ 1 := by
  simp only [alignCf, List.mem_map] at hp
  obtain ⟨i, _, rfl⟩ := hp
  simp only [cfVal]
  cases hfind : (normRow row).find? (fun q => q.1 == i) with
  | none => exact Or.inr ⟨0, rfl, le_refl 0, zero_le_one⟩
  | some fp =>
    have hmem : fp ∈ normRow row := List.mem_of_find?_eq_some hfind
    obtain ⟨i2, v⟩ := fp
    have hv : v ∈ minmaxNorm (row.map Prod.snd) := (List.of_mem_zip hmem).2
    by_cases hc : vMax (row.map Prod.snd) = vMin (row.map Prod.snd)
    · exact Or.inl (mem_minmaxNorm_of_const hc hv)
    · exact Or.inr (mem_minmaxNorm_of_ne hc hv)

/-- Witness for alignCf_entry_nan_or_unit: the entry of candidate 0 for
the user row [(0, 1), (1, 3)]. -/
theorem alignCf_entry_nan_or_unit_witness :
    ((0, (some 0 : F)) ∈ alignCf [(0, 1), (1, 3)] [0, 1]) ∧
    ((0, (some 0 : F)).2 = none ∨
      ∃ q, (0, (some 0 : F)).2 = some q ∧ 0 ≤ q ∧ q ≤ 1) := by
  have hmem : (0, (some 0 : F)) ∈ alignCf [(0, 1), (1, 3)] [0, 1] := by
    simp [alignCf, cfVal, normRow, minmaxNorm, vMax, vMin,
      List.find?_cons]
  exact ⟨hmem, alignCf_entry_nan_or_unit _ _ _ hmem⟩

/-- C2 (counterexample): for the user row [(0,0), (1,5), (2,10)] and
candidate labels [0, 1] (the user row scores a movie, column 2, that is
not among the candidates), the code aligns AFTER normalizing: candidate 1
gets 1/2, the full-row normalized value, so the vector over the
candidates attains neither 1 nor is it all zeros — while align-then-
normalize, as the claim states it, would give candidate 1 the value 1. -/
theorem alignCf_differs_from_align_then_normalize :
    alignCf [(0, 0), (1, 5), (2, 10)] [0, 1] =
      [(0, some 0), (1, some (1/2))] ∧
    alignThenNormCfSpec [(0, 0), (1, 5), (2, 10)] [0, 1] =
      [(0, some 0), (1, some 1)] ∧
    alignCf [(0, 0), (1, 5), (2, 10)] [0, 1] ≠
      alignThenNormCfSpec [(0, 0), (1, 5), (2, 10)] [0, 1] ∧
    ∀ p ∈ alignCf [(0, 0), (1, 5), (2, 10)] [0, 1], p.2 ≠ some 1 := by
  have h1 : alignCf [(0, 0), (1, 5), (2, 10)] [0, 1] =
      [(0, some 0), (1, some (1/2))] := by
    simp [alignCf, cfVal, normRow, minmaxNorm, vMax, vMin, List.find?_cons]
    norm_num
  have h2 : alignThenNormCfSpec [(0, 0), (1, 5), (2, 10)] [0, 1] =
      [(0, some 0), (1, some 1)] := by
    simp [alignThenNormCfSpec, minmaxNorm, vMax, vMin, List.find?_cons]
  refine ⟨h1, h2, by rw [h1, h2]; norm_num, ?_⟩
  rw [h1]
  norm_num

/-! ## The no-match and error paths (C9, C4, C3) -/

/-- C9: when the seed title does not appear among the candidates (for
example because the genre filter excludes it), hybrid_recommend returns
the empty DataFrame (src/app.py lines 119-120) — a defined no-match
outcome, not an error. -/
theorem seed_not_in_candidates_returns_empty (selected_genres : List String)
    (fp ft : Int → Option String) (u : Nat) (title : String)
    (movies : List Movie) (preds : List (Nat × List (Nat × ℚ)))
    (sim : List (List ℚ)) (n : Nat) (a : ℚ)
    (h : (candidates selected_genres movies).any
      (fun p => p.2.title == title) = false) :
    hybrid_recommend selected_genres fp ft u title movies preds sim n a =
      .ok [] := by
  simp [hybrid_recommend, h]

/-- Witness for seed_not_in_candidates_returns_empty: the scenario of the
specification — five movies with genres Action, Drama, Action, Comedy,
Drama, genre filter Action, seed title B (excluded by the filter). -/
theorem seed_not_in_candidates_returns_empty_witness :
    hybrid_recommend ["Action"] (fun _ => none) (fun _ => none) 1 "B"
      [⟨1, "A", ["Action"]⟩, ⟨2, "B", ["Drama"]⟩, ⟨3, "C", ["Action"]⟩,
       ⟨4, "D", ["Comedy"]⟩, ⟨5, "E", ["Drama"]⟩]
      [(1, [(0, 1), (1, 2)])] [[1]] 10 (1/10) = .ok [] :=
  seed_not_in_candidates_returns_empty _ _ _ _ _ _ _ _ _ _ (by decide)

/-- C4 (amended): when the user id is absent from the CF prediction
table (and the seed title is among the candidates, so that line 122 is
reached), hybrid_recommend raises KeyError from the preds_df.loc lookup —
an uncaught exception, not a typed error value; in particular it does not
silently return an empty list. -/
theorem unknown_user_raises_keyerror (selected_genres : List String)
    (fp ft : Int → Option String) (u : Nat) (title : String)
    (movies : List Movie) (preds : List (Nat × List (Nat × ℚ)))
    (sim : List (List ℚ)) (n : Nat) (a : ℚ)
    (hseed : (candidates selected_genres movies).any
      (fun p => p.2.title == title) = true)
    (hu : preds.find? (fun r => r.1 == u) = none) :
    hybrid_recommend selected_genres fp ft u title movies preds sim n a =
      .error .keyError ∧
    hybrid_recommend selected_genres fp ft u title movies preds sim n a ≠
      .ok [] := by
  have h1 : hybrid_recommend selected_genres fp ft u title movies preds sim n a
      = .error .keyError := by
    simp [hybrid_recommend, hseed, hu]
  exact ⟨h1, by rw [h1]; simp⟩

/-- Witness for unknown_user_raises_keyerror: user 99 absent from a
one-user CF table, seed title present in the unfiltered catalog. -/
theorem unknown_user_raises_keyerror_witness :
    hybrid_recommend [] (fun _ => none) (fun _ => none) 99 "A"
      [⟨1, "A", ["Action"]⟩] [(7, [(0, 1)])] [[1]] 10 (1/10) =
      .error .keyError ∧
    hybrid_recommend [] (fun _ => none) (fun _ => none) 99 "A"
      [⟨1, "A", ["Action"]⟩] [(7, [(0, 1)])] [[1]] 10 (1/10) ≠ .ok [] :=
  unknown_user_raises_keyerror _ _ _ _ _ _ _ _ _ _ (by decide) (by decide)

/-- C4 (counterexample): a concrete run with a user id absent from the CF
table ends in the raised KeyError of preds_df.loc (line 122) — there is
no typed UnknownUser result anywhere in the code. -/
theorem unknown_user_no_typed_error_example :
    hybrid_recommend [] (fun _ => none) (fun _ => none) 42 "X"
      [⟨9, "X", ["Drama"]⟩, ⟨10, "Y", ["Drama"]⟩]
      [(7, [(0, 1), (1, 2)]), (8, [(0, 3), (1, 4)])] [[1, 0], [0, 1]] 5
      (1/2) = .error .keyError := by
  simp [hybrid_recommend, candidates, withLabels, withLabelsFrom,
    List.find?_cons]

/-- C3: with the genre filter Action on a two-movie catalog whose only
Action movie is the seed, the candidate set is the strict subset
containing just the seed, and hybrid_recommend raises ValueError at
src/app.py line 129: the full-length (2) normalized similarity row is
wrapped in a pandas Series over the filtered 1-element candidate index.
The code never restricts the similarity row to the candidate positions
before normalizing, contrary to the claim and to the specification. -/
theorem content_series_length_mismatch_raises :
    hybrid_recommend ["Action"] (fun _ => none) (fun _ => none) 1 "A"
      [⟨1, "A", ["Action"]⟩, ⟨2, "B", ["Drama"]⟩]
      [(1, [(0, 1), (1, 2)])] [[4, 1], [1, 4]] 10 (1/10) =
      .error .valueError := by
  have hc : candidates ["Action"]
      [⟨1, "A", ["Action"]⟩, ⟨2, "B", ["Drama"]⟩] =
      [(0, ⟨1, "A", ["Action"]⟩)] := by decide
  simp [hybrid_recommend, hc, List.find?_cons, minmaxNorm, vMax, vMin]

end MovieRec

namespace MovieRec

/-! ## Catalog labels -/

theorem withLabelsFrom_length : ∀ (l : List α) (n : Nat),
    (withLabelsFrom n l).length = l.length
  | [], _ => rfl
  | _ :: t, n => by simp [withLabelsFrom, withLabelsFrom_length t (n + 1)]

theorem mem_withLabelsFrom : ∀ {l : List α} {n : Nat} {p : Nat × α},
    p ∈ withLabelsFrom n l → n ≤ p.1 ∧ p.1 < n + l.length
  | [], _, p, h => absurd h (List.not_mem_nil p)
  | a :: t, n, p, h => by
      rcases List.mem_cons.mp h with rfl | h2
      · simp
      · have ih := mem_withLabelsFrom h2
        constructor
        · omega
        · simpa [Nat.add_comm, Nat.add_left_comm] using ih.2

theorem withLabels_length (l : List α) : (withLabels l).length = l.length :=
  withLabelsFrom_length l 0

theorem mem_candidates_label_lt {g : List String} {movies : List Movie}
    {p : Nat × Movie} (h : p ∈ candidates g movies) : p.1 < movies.length := by
  have hw : p ∈ withLabels movies := by
    by_cases hg : g.isEmpty
    · simpa [candidates, hg] using h
    · simp only [candidates, hg, Bool.false_eq_true, if_false] at h
      exact List.mem_of_mem_filter h
  simpa using (mem_withLabelsFrom hw).2

/-! ## Strict genre filtering crashes the content-series construction -/

/-- C10: for every genre filter whose candidate set is a strict subset of
the catalog but still contains the seed title (and a square similarity
matrix and a present user, so the code reaches line 129), hybrid_recommend
raises ValueError: the full-catalog-length normalized similarity row is
wrapped in a pandas Series indexed by the shorter filtered candidate
index, a length-mismatched construction. -/
theorem strict_candidate_subset_raises_valueerror (g : List String)
    (fp ft : Int → Option String) (u : Nat) (title : String)
    (movies : List Movie) (preds : List (Nat × List (Nat × ℚ)))
    (sim : List (List ℚ)) (n : Nat) (a : ℚ)
    (ur : Nat × List (Nat × ℚ))
    (hseed : (candidates g movies).any (fun p => p.2.title == title) = true)
    (hu : preds.find? (fun r => r.1 == u) = some ur)
    (hsq : sim.length = movies.length)
    (hrows : ∀ r ∈ sim, r.length = movies.length)
    (hlt : (candidates g movies).length < movies.length) :
    hybrid_recommend g fp ft u title movies preds sim n a =
      .error .valueError := by
  have hfindsome : ((candidates g movies).find?
      (fun p => p.2.title == title)).isSome := by
    rw [List.find?_isSome]
    obtain ⟨x, hx, hpx⟩ := List.any_eq_true.mp hseed
    exact ⟨x, hx, hpx⟩
  obtain ⟨seedp, hfind⟩ := Option.isSome_iff_exists.mp hfindsome
  have hlab : seedp.1 < sim.length := by
    rw [hsq]
    exact mem_candidates_label_lt (List.mem_of_find?_eq_some hfind)
  have hget : sim.get? seedp.1 = some (sim.get ⟨seedp.1, hlab⟩) :=
    List.get?_eq_get hlab
  have hrlen : (sim.get ⟨seedp.1, hlab⟩).length = movies.length :=
    hrows _ (sim.get_mem _ _)
  have hne : ¬ ((candidates g movies).length =
      (minmaxNorm (sim.get ⟨seedp.1, hlab⟩)).length) := by
    rw [minmaxNorm_length, hrlen]
    omega
  simp only [hybrid_recommend, hseed, not_true_eq_false, if_false, hu, hfind,
    hget, if_neg hne]

/-- Witness for strict_candidate_subset_raises_valueerror: the two-movie
catalog with filter Action, seed A, user 1. -/
theorem strict_candidate_subset_raises_valueerror_witness :
    hybrid_recommend ["Action"] (fun _ => none) (fun _ => none) 1 "A"
      [⟨1, "A", ["Action"]⟩, ⟨2, "B", ["Drama"]⟩]
      [(1, [(0, 3), (1, 4)])] [[4, 1], [1, 4]] 5 (1/2) =
      .error .valueError :=
  strict_candidate_subset_raises_valueerror _ _ _ _ _ _ _ _ _ _
    (1, [(0, 3), (1, 4)]) (by decide) (by decide) (by decide)
    (by intro r hr; fin_cases hr <;> decide) (by decide)

/-! ## The ranking does not depend on the enrichment fetchers (C5) -/

theorem mapLoc_strip (fp ft fp' ft' : Int → Option String)
    (filtered : List (Nat × Movie)) : ∀ top : List (Nat × F),
    (mapLoc fp ft filtered top).map (List.map stripRow) =
    (mapLoc fp' ft' filtered top).map (List.map stripRow)
  | [] => rfl
  | (i, s) :: rest => by
    simp only [mapLoc]
    cases hf : filtered.find? (fun p => p.1 == i) with
    | none => rfl
    | some pm =>
      have ih := mapLoc_strip fp ft fp' ft' filtered rest
      cases h1 : mapLoc fp ft filtered rest with
      | error e =>
        cases h1' : mapLoc fp' ft' filtered rest with
        | error e' =>
          rw [h1, h1'] at ih
          simp only [Except.map] at ih ⊢
          exact ih
        | ok tl' =>
          rw [h1, h1'] at ih
          simp [Except.map] at ih
      | ok tl =>
        cases h1' : mapLoc fp' ft' filtered rest with
        | error e' =>
          rw [h1, h1'] at ih
          simp [Except.map] at ih
        | ok tl' =>
          rw [h1, h1'] at ih
          simp only [Except.map] at ih ⊢
          injection ih with ih2
          simp [stripRow, ih2]

/-- C5 (amended, part proved): the ranking hybrid_recommend computes —
the titles, blended scores and movie ids of the result — is a pure
function of the explicit arguments, the global genre selection and the
Data Store; it does not depend on the poster/trailer fetchers, even
though the function calls them internally to fill the enrichment
columns. -/
theorem ranking_ignores_fetchers (g : List String)
    (fp ft fp' ft' : Int → Option String) (u : Nat) (title : String)
    (movies : List Movie) (preds : List (Nat × List (Nat × ℚ)))
    (sim : List (List ℚ)) (n : Nat) (a : ℚ) :
    (hybrid_recommend g fp ft u title movies preds sim n a).map
      (List.map stripRow) =
    (hybrid_recommend g fp' ft' u title movies preds sim n a).map
      (List.map stripRow) := by
  simp only [hybrid_recommend]
  split
  · rfl
  · split
    · rfl
    · split
      · rfl
      · split
        · rfl
        · split
          · exact mapLoc_strip fp ft fp' ft' _ _
          · rfl

end MovieRec

namespace MovieRec

/-- C5 (counterexample): hybrid_recommend is not a pure function of its
explicit arguments and the Data Store alone.  With identical explicit
arguments (user_id, title, movies, preds, similarity, top_n, alpha):
(1) changing the module-global genre multiselect changes the result, and
(2) changing the poster fetcher changes the result, because the function
performs poster/trailer enrichment inside the ranking step
(lines 136-137). -/
theorem recommend_depends_on_globals_and_enrichment :
    (hybrid_recommend [] (fun _ => none) (fun _ => none) 7 "A"
        [⟨1, "A", ["Action"]⟩, ⟨2, "B", ["Drama"]⟩]
        [(7, [(0, 1), (1, 2)])] [[4, 1], [1, 4]] 10 (1/4) ≠
      hybrid_recommend ["Drama"] (fun _ => none) (fun _ => none) 7 "A"
        [⟨1, "A", ["Action"]⟩, ⟨2, "B", ["Drama"]⟩]
        [(7, [(0, 1), (1, 2)])] [[4, 1], [1, 4]] 10 (1/4)) ∧
    (hybrid_recommend [] (fun _ => some "P") (fun _ => none) 7 "A"
        [⟨1, "A", ["Action"]⟩, ⟨2, "B", ["Drama"]⟩]
        [(7, [(0, 1), (1, 2)])] [[4, 1], [1, 4]] 10 (1/4) ≠
      hybrid_recommend [] (fun _ => none) (fun _ => none) 7 "A"
        [⟨1, "A", ["Action"]⟩, ⟨2, "B", ["Drama"]⟩]
        [(7, [(0, 1), (1, 2)])] [[4, 1], [1, 4]] 10 (1/4)) := by
  have e1 : hybrid_recommend [] (fun _ => none) (fun _ => none) 7 "A"
      [⟨1, "A", ["Action"]⟩, ⟨2, "B", ["Drama"]⟩]
      [(7, [(0, 1), (1, 2)])] [[4, 1], [1, 4]] 10 (1/4) =
      .ok [⟨"A", none, none, some (3/4), 1⟩,
           ⟨"B", none, none, some (1/4), 2⟩] := by
    norm_num [hybrid_recommend, candidates, withLabels, withLabelsFrom,
      List.find?_cons, minmaxNorm, vMax, vMin, hybridSeries, alignCf, cfVal,
      normRow, sortDescNaLast, List.insertionSort, List.orderedInsert, keyLe,
      fadd, smul, mapLoc, Except.map]
  have e2 : hybrid_recommend ["Drama"] (fun _ => none) (fun _ => none) 7 "A"
      [⟨1, "A", ["Action"]⟩, ⟨2, "B", ["Drama"]⟩]
      [(7, [(0, 1), (1, 2)])] [[4, 1], [1, 4]] 10 (1/4) = .ok [] := by
    apply seed_not_in_candidates_returns_empty
    decide
  have e3 : hybrid_recommend [] (fun _ => some "P") (fun _ => none) 7 "A"
      [⟨1, "A", ["Action"]⟩, ⟨2, "B", ["Drama"]⟩]
      [(7, [(0, 1), (1, 2)])] [[4, 1], [1, 4]] 10 (1/4) =
      .ok [⟨"A", some "P", none, some (3/4), 1⟩,
           ⟨"B", some "P", none, some (1/4), 2⟩] := by
    norm_num [hybrid_recommend, candidates, withLabels, withLabelsFrom,
      List.find?_cons, minmaxNorm, vMax, vMin, hybridSeries, alignCf, cfVal,
      normRow, sortDescNaLast, List.insertionSort, List.orderedInsert, keyLe,
      fadd, smul, mapLoc, Except.map]
  refine ⟨by rw [e1, e2]; simp, by rw [e3, e1]; simp⟩

end MovieRec

namespace MovieRec

/-! ## Order lemmas for the descending sort -/

theorem recPrec_refl (x : Nat × F) : recPrec x x := by
  obtain ⟨i, s⟩ := x
  cases s <;> simp [recPrec]

theorem recPrec_total (x y : Nat × F) : recPrec x y ∨ recPrec y x := by
  obtain ⟨i, s⟩ := x
  obtain ⟨j, t⟩ := y
  cases s with
  | none => cases t with
    | none => simp [recPrec]; omega
    | some b => simp [recPrec]
  | some a => cases t with
    | none => simp [recPrec]
    | some b =>
      simp only [recPrec]
      rcases lt_trichotomy a b with h | h | h
      · exact Or.inr (Or.inl h)
      · rcases Nat.le_total i j with h2 | h2
        · exact Or.inl (Or.inr ⟨h.symm, h2⟩)
        · exact Or.inr (Or.inr ⟨h, h2⟩)
      · exact Or.inl (Or.inl h)

theorem recPrec_antisymm : ∀ {x y : Nat × F},
    recPrec x y → recPrec y x → x = y := by
  rintro ⟨i, s⟩ ⟨j, t⟩ h1 h2
  cases s with
  | none => cases t with
    | none =>
      simp only [recPrec] at h1 h2
      simp [Nat.le_antisymm h1 h2]
    | some b => exact absurd h1 (by simp [recPrec])
  | some a => cases t with
    | none => exact absurd h2 (by simp [recPrec])
    | some b =>
      simp only [recPrec] at h1 h2
      rcases h1 with h1 | ⟨hb, hij⟩
      · rcases h2 with h2 | ⟨ha, _⟩
        · exact absurd (lt_trans h1 h2) (lt_irrefl b)
        · exact absurd h1 (ha ▸ lt_irrefl b)
      · rcases h2 with h2 | ⟨_, hji⟩
        · exact absurd h2 (hb ▸ lt_irrefl a)
        · simp [hb, Nat.le_antisymm hij hji]

theorem orderedInsert_keyLe_eq_lexLe (a : Nat × ℚ) :
    ∀ s : List (Nat × ℚ), (∀ b ∈ s, b.1 < a.1) →
    List.orderedInsert keyLe a s = List.orderedInsert lexLe a s
  | [] => fun _ => rfl
  | b :: t => fun h => by
      have hab : keyLe a b ↔ lexLe a b := by
        constructor
        · intro hk
          rcases lt_or_eq_of_le hk with h1 | h1
          · exact Or.inl h1
          · exact Or.inr ⟨h1, le_of_lt (h b (List.mem_cons_self b t))⟩
        · intro hl
          rcases hl with h1 | ⟨h1, _⟩
          · exact le_of_lt h1
          · exact le_of_eq h1
      by_cases hk : keyLe a b
      · simp only [List.orderedInsert, if_pos hk, if_pos (hab.mp hk)]
      · have hl : ¬ lexLe a b := fun hx => hk (hab.mpr hx)
        simp only [List.orderedInsert, if_neg hk, if_neg hl]
        rw [orderedInsert_keyLe_eq_lexLe a t
          (fun c hc => h c (List.mem_cons_of_mem b hc))]

theorem insertionSort_keyLe_eq_lexLe :
    ∀ l : List (Nat × ℚ), List.Pairwise (fun a b => b.1 < a.1) l →
    List.insertionSort keyLe l = List.insertionSort lexLe l
  | [] => fun _ => rfl
  | a :: t => fun hp => by
      have ht := List.pairwise_cons.mp hp
      simp only [List.insertionSort]
      rw [insertionSort_keyLe_eq_lexLe t ht.2]
      exact orderedInsert_keyLe_eq_lexLe a _ (fun b hb =>
        ht.1 b ((List.perm_insertionSort lexLe t).mem_iff.mp hb))

theorem sortDescNaLast_sorted {l : List (Nat × F)}
    (h : List.Pairwise (fun a b : Nat × F => a.1 < b.1) l) :
    List.Pairwise recPrec (sortDescNaLast l) := by
  have hnn : List.Pairwise (fun a b : Nat × ℚ => a.1 < b.1)
      (l.filterMap (fun p => p.2.map (fun v => (p.1, v)))) := by
    rw [List.pairwise_filterMap]
    refine h.imp ?_
    rintro ⟨i, s⟩ ⟨j, t⟩ hab x hx y hy
    cases s with
    | none => simp at hx
    | some v =>
      cases t with
      | none => simp at hy
      | some w =>
        simp only [Option.map_some', Option.mem_def, Option.some.injEq] at hx hy
        rw [← hx, ← hy]
        exact hab
  have hnnrev : List.Pairwise (fun a b : Nat × ℚ => b.1 < a.1)
      (l.filterMap (fun p => p.2.map (fun v => (p.1, v)))).reverse := by
    rw [List.pairwise_reverse]
    exact hnn
  have hsort : List.Sorted lexLe (List.insertionSort lexLe
      (l.filterMap (fun p => p.2.map (fun v => (p.1, v)))).reverse) :=
    List.sorted_insertionSort lexLe _
  rw [sortDescNaLast, insertionSort_keyLe_eq_lexLe _ hnnrev]
  apply List.pairwise_append.mpr
  refine ⟨?_, ?_, ?_⟩
  · rw [List.pairwise_map]
    have hrev := List.pairwise_reverse.mpr hsort
    refine hrev.imp ?_
    rintro ⟨i, a⟩ ⟨j, b⟩ hab
    rcases hab with h1 | ⟨h1, h2⟩
    · exact Or.inl h1
    · exact Or.inr ⟨h1, h2⟩
  · have hfil : List.Pairwise (fun a b : Nat × F => a.1 < b.1)
        (l.filter (fun p => p.2.isNone)) :=
      h.sublist (List.filter_sublist l)
    refine hfil.imp_of_mem ?_
    intro a b ha hb hab
    have ha2 : a.2 = none :=
      Option.isNone_iff_eq_none.mp (by simpa using (List.mem_filter.mp ha).2)
    have hb2 : b.2 = none :=
      Option.isNone_iff_eq_none.mp (by simpa using (List.mem_filter.mp hb).2)
    obtain ⟨i, s⟩ := a
    obtain ⟨j, t⟩ := b
    simp only at ha2 hb2
    rw [ha2, hb2]
    simp only [recPrec]
    exact le_of_lt hab
  · intro x hx y hy
    obtain ⟨q, _, rfl⟩ := List.mem_map.mp hx
    have hy2 : y.2 = none :=
      Option.isNone_iff_eq_none.mp (by simpa using (List.mem_filter.mp hy).2)
    obtain ⟨j, t⟩ := y
    simp only at hy2
    rw [hy2]
    simp [recPrec]

theorem filterMap_rewrap_eq_filter :
    ∀ l : List (Nat × F),
    (l.filterMap (fun p => p.2.map (fun v => (p.1, v)))).map
      (fun p => (p.1, some p.2)) = l.filter (fun p => p.2.isSome)
  | [] => rfl
  | (i, s) :: t => by
      cases s <;>
        simp [List.filterMap_cons, List.filter_cons,
          filterMap_rewrap_eq_filter t]

theorem sortDescNaLast_perm (l : List (Nat × F)) :
    List.Perm (sortDescNaLast l) l := by
  rw [sortDescNaLast]
  have h1 : List.Perm
      ((List.insertionSort keyLe
        ((l.filterMap (fun p => p.2.map (fun v => (p.1, v)))).reverse)).reverse.map
          (fun p => (p.1, some p.2)))
      (l.filter (fun p => p.2.isSome)) := by
    rw [← filterMap_rewrap_eq_filter]
    exact ((List.reverse_perm _).trans
      ((List.perm_insertionSort keyLe _).trans (List.reverse_perm _))).map _
  refine (h1.append_right _).trans ?_
  have h2 : (fun p : Nat × F => p.2.isNone) = (fun p => !p.2.isSome) := by
    funext p
    cases p.2 <;> rfl
  rw [h2]
  exact List.filter_append_perm _ l

/-! ## Positions in a sorted series -/

theorem labelPos_lt_of_strict :
    ∀ {m : List (Nat × F)}, List.Pairwise recPrec m →
    (m.map Prod.fst).Nodup → ∀ {x y : Nat × F}, x ∈ m → y ∈ m →
    recPrec x y → ¬ recPrec y x →
    labelPos x.1 m < labelPos y.1 m := by
  intro m
  induction m with
  | nil =>
    intro _ _ x y hx
    exact absurd hx (List.not_mem_nil x)
  | cons a t ih =>
    intro hp hnd x y hx hy hxy hyx
    have hne : x ≠ y := fun he => hyx (he ▸ recPrec_refl x)
    have hinj := List.inj_on_of_nodup_map hnd
    by_cases hax : a.1 = x.1
    · have hxa : x = a := hinj hx (List.mem_cons_self a t) hax.symm
      have hya : y.1 ≠ a.1 := by
        intro he
        have hya2 : y = a := hinj hy (List.mem_cons_self a t) he
        exact hne (hxa.trans hya2.symm)
      simp only [labelPos, List.findIdx_cons]
      have hbx : (a.1 == x.1) = true := beq_iff_eq.mpr hax
      have hby : (a.1 == y.1) = true ↔ False := by simp [beq_iff_eq]; exact fun h => hya h.symm
      rw [hbx]
      simp only [cond_true]
      rcases hb : (a.1 == y.1) with _ | _
      · simp only [cond_false]
        omega
      · exact absurd (beq_iff_eq.mp hb) (fun h => hya h.symm)
    · have hx' : x ∈ t := by
        rcases List.mem_cons.mp hx with rfl | h2
        · exact absurd rfl hax
        · exact h2
      by_cases hay : a.1 = y.1
      · have hya : y = a := hinj hy (List.mem_cons_self a t) hay.symm
        have := (List.pairwise_cons.mp hp).1 x hx'
        exact absurd (hya ▸ this) hyx
      · have hy' : y ∈ t := by
          rcases List.mem_cons.mp hy with rfl | h2
          · exact absurd rfl hay
          · exact h2
        have hndt : (t.map Prod.fst).Nodup := (List.nodup_cons.mp hnd).2
        have hrec := ih (List.pairwise_cons.mp hp).2 hndt hx' hy' hxy hyx
        simp only [labelPos, List.findIdx_cons] at hrec ⊢
        have hbx : (a.1 == x.1) = false := by
          simp [beq_iff_eq]
          exact hax
        have hby : (a.1 == y.1) = false := by
          simp [beq_iff_eq]
          exact hay
        rw [hbx, hby]
        simp only [cond_false]
        omega

theorem strict_of_labelPos_lt {m : List (Nat × F)}
    (hp : List.Pairwise recPrec m) (hnd : (m.map Prod.fst).Nodup)
    {x y : Nat × F} (hx : x ∈ m) (hy : y ∈ m)
    (hlt : labelPos x.1 m < labelPos y.1 m) :
    recPrec x y ∧ ¬ recPrec y x := by
  by_cases h2 : recPrec y x
  · by_cases h1 : recPrec x y
    · have := recPrec_antisymm h1 h2
      rw [this] at hlt
      exact absurd hlt (lt_irrefl _)
    · have hxy : ¬ recPrec x y := h1
      have := labelPos_lt_of_strict hp hnd hy hx h2 hxy
      omega
  · rcases recPrec_total x y with h1 | h1
    · exact ⟨h1, h2⟩
    · exact absurd h1 h2

/-! ## The candidate index is strictly increasing -/

theorem withLabelsFrom_pairwise :
    ∀ (l : List α) (n : Nat),
    List.Pairwise (fun a b : Nat × α => a.1 < b.1) (withLabelsFrom n l)
  | [], _ => List.Pairwise.nil
  | a :: t, n => by
      refine List.pairwise_cons.mpr ⟨?_, withLabelsFrom_pairwise t (n + 1)⟩
      intro b hb
      have := (mem_withLabelsFrom hb).1
      simpa using lt_of_lt_of_le (Nat.lt_succ_self n) this

theorem candidates_pairwise (g : List String) (movies : List Movie) :
    List.Pairwise (fun a b : Nat × Movie => a.1 < b.1)
      (candidates g movies) := by
  unfold candidates
  split
  · exact withLabelsFrom_pairwise movies 0
  · exact (withLabelsFrom_pairwise movies 0).sublist (List.filter_sublist _)

end MovieRec

namespace MovieRec

/-! ## Structure of a successful run -/

theorem hybridSeries_length (a : ℚ) (row : List (Nat × ℚ)) (labels : List Nat)
    (simRow : List ℚ) (hl : labels.length = (minmaxNorm simRow).length) :
    (hybridSeries a row labels simRow).length = labels.length := by
  simp only [hybridSeries, alignCf, List.length_zipWith, List.length_map,
    List.length_zip]
  omega

theorem hybridSeries_getElem (a : ℚ) (row : List (Nat × ℚ))
    (labels : List Nat) (simRow : List ℚ)
    (_hl : labels.length = (minmaxNorm simRow).length) (i : Nat)
    (hi : i < labels.length)
    (hi2 : i < (hybridSeries a row labels simRow).length)
    (hi3 : i < (minmaxNorm simRow).length) :
    (hybridSeries a row labels simRow)[i] =
    (labels[i], fadd (smul a (cfVal row labels[i]))
      (smul (1 - a) ((minmaxNorm simRow)[i]))) := by
  simp [hybridSeries, alignCf, List.getElem_zipWith, List.getElem_map,
    List.getElem_zip]

theorem hybridSeries_map_fst (a : ℚ) (row : List (Nat × ℚ))
    (labels : List Nat) (simRow : List ℚ)
    (hl : labels.length = (minmaxNorm simRow).length) :
    (hybridSeries a row labels simRow).map Prod.fst = labels := by
  apply List.ext_getElem
  · rw [List.length_map, hybridSeries_length a row labels simRow hl]
  · intro i h1 h2
    rw [List.getElem_map]
    rw [hybridSeries_getElem a row labels simRow hl i h2
      (by simpa using h1) (hl ▸ h2)]

theorem mapLoc_ok_eq {fp ft : Int → Option String}
    {filtered : List (Nat × Movie)} :
    ∀ {top : List (Nat × F)} {recs : List RecRow},
    mapLoc fp ft filtered top = .ok recs →
    recs = top.map (locRow fp ft filtered)
  | [], recs, h => by
      simp only [mapLoc] at h
      injection h with h
      simp [← h]
  | (i, s) :: rest, recs, h => by
      simp only [mapLoc] at h
      cases hf : filtered.find? (fun p => p.1 == i) with
      | none => rw [hf] at h; exact absurd h (by simp)
      | some pm =>
        rw [hf] at h
        cases hr : mapLoc fp ft filtered rest with
        | error e => rw [hr] at h; exact absurd h (by simp [Except.map])
        | ok tl =>
          rw [hr] at h
          simp only [Except.map, Except.ok.injEq] at h
          have ih := mapLoc_ok_eq hr
          rw [← h, List.map_cons, ← ih, locRow, hf]

theorem withLabelsFrom_mem_getElem :
    ∀ {l : List α} {n : Nat} {p : Nat × α}, p ∈ withLabelsFrom n l →
    ∃ h : p.1 - n < l.length, n ≤ p.1 ∧ l.get ⟨p.1 - n, h⟩ = p.2
  | [], n, p, h => absurd h (List.not_mem_nil p)
  | a :: t, n, p, h => by
      rcases List.mem_cons.mp h with rfl | h2
      · exact ⟨by simp, le_refl n, by simp⟩
      · obtain ⟨hlt, hge, hval⟩ := withLabelsFrom_mem_getElem h2
        have hge1 : n + 1 ≤ p.1 := hge
        have hidx : p.1 - n = (p.1 - (n + 1)) + 1 := by omega
        have hlt2 : p.1 - n < (a :: t).length := by
          simp only [List.length_cons]
          omega
        refine ⟨hlt2, by omega, ?_⟩
        rw [← hval]
        simp only [List.get_eq_getElem]
        simp only [hidx, List.getElem_cons_succ]

theorem mem_withLabels_getElem {l : List α} {p : Nat × α}
    (h : p ∈ withLabels l) :
    ∃ hlt : p.1 < l.length, l.get ⟨p.1, hlt⟩ = p.2 := by
  obtain ⟨hlt, _, hval⟩ := withLabelsFrom_mem_getElem h
  have hlt0 : p.1 < l.length := by simpa using hlt
  refine ⟨hlt0, ?_⟩
  rw [← hval]
  exact congrArg l.get (Fin.ext (by simp))

theorem mem_candidates_mem_withLabels {g : List String} {movies : List Movie}
    {p : Nat × Movie} (h : p ∈ candidates g movies) :
    p ∈ withLabels movies := by
  unfold candidates at h
  split at h
  · exact h
  · exact List.mem_of_mem_filter h

/-- Unfolding of hybrid_recommend on the success path: the result is
mapLoc applied to the first top_n entries of the descending-sorted
blended series. -/
theorem hybrid_recommend_ok_eq (g : List String)
    (fp ft : Int → Option String) (u : Nat) (title : String)
    (movies : List Movie) (preds : List (Nat × List (Nat × ℚ)))
    (sim : List (List ℚ)) (n : Nat) (a : ℚ)
    (ur : Nat × List (Nat × ℚ)) (seed : Nat × Movie) (simRow : List ℚ)
    (hseed : (candidates g movies).any (fun p => p.2.title == title) = true)
    (hu : preds.find? (fun r => r.1 == u) = some ur)
    (hfind : (candidates g movies).find? (fun p => p.2.title == title) =
      some seed)
    (hsim : sim.get? seed.1 = some simRow)
    (hlen : (candidates g movies).length = (minmaxNorm simRow).length) :
    hybrid_recommend g fp ft u title movies preds sim n a =
      mapLoc fp ft (candidates g movies)
        ((sortDescNaLast (hybridSeries a ur.2
          ((candidates g movies).map Prod.fst) simRow)).take n) := by
  simp only [hybrid_recommend, hseed, not_true_eq_false, if_false, hu, hfind,
    hsim, if_pos hlen]

theorem candidates_labels_pairwise (g : List String) (movies : List Movie) :
    List.Pairwise (fun i j : Nat => i < j)
      ((candidates g movies).map Prod.fst) :=
  List.pairwise_map.mpr (candidates_pairwise g movies)

theorem candidates_labels_nodup (g : List String) (movies : List Movie) :
    ((candidates g movies).map Prod.fst).Nodup :=
  (candidates_labels_pairwise g movies).imp (fun h => Nat.ne_of_lt h)

end MovieRec

namespace MovieRec

theorem recPrec_scoreGe : ∀ {x y : Nat × F}, recPrec x y → scoreGe x.2 y.2 := by
  rintro ⟨i, s⟩ ⟨j, t⟩ h
  cases s with
  | none => cases t with
    | none => simp [scoreGe]
    | some b => exact absurd h (by simp [recPrec])
  | some a => cases t with
    | none => simp [scoreGe]
    | some b =>
      simp only [recPrec] at h
      simp only [scoreGe]
      rcases h with h | ⟨h, _⟩
      · exact le_of_lt h
      · exact le_of_eq h

theorem locRow_score (fp ft : Int → Option String)
    (filtered : List (Nat × Movie)) (p : Nat × F) :
    (locRow fp ft filtered p).hybrid_score = p.2 := by
  unfold locRow
  split <;> rfl

theorem find?_label_exists {g : List String} {movies : List Movie} {lab : Nat}
    (h : lab ∈ (candidates g movies).map Prod.fst) :
    ∃ pm, (candidates g movies).find? (fun q => q.1 == lab) = some pm ∧
      pm.1 = lab ∧ pm ∈ candidates g movies := by
  have hsome : ((candidates g movies).find? (fun q => q.1 == lab)).isSome := by
    rw [List.find?_isSome]
    obtain ⟨cm, hcm, hfst⟩ := List.mem_map.mp h
    exact ⟨cm, hcm, by simp [hfst]⟩
  obtain ⟨pm, hpm⟩ := Option.isSome_iff_exists.mp hsome
  have hbeq := List.find?_some hpm
  simp only [beq_iff_eq] at hbeq
  exact ⟨pm, hpm, hbeq, List.mem_of_find?_eq_some hpm⟩

theorem candidates_id_injective {g : List String} {movies : List Movie}
    (hids : (movies.map Movie.id).Nodup) {pm qm : Nat × Movie}
    (hpm : pm ∈ candidates g movies) (hqm : qm ∈ candidates g movies)
    (hid : pm.2.id = qm.2.id) : pm.1 = qm.1 := by
  obtain ⟨hplt, hpval⟩ := mem_withLabels_getElem (mem_candidates_mem_withLabels hpm)
  obtain ⟨hqlt, hqval⟩ := mem_withLabels_getElem (mem_candidates_mem_withLabels hqm)
  simp only [List.get_eq_getElem] at hpval hqval
  have hplt2 : pm.1 < (movies.map Movie.id).length := by simpa using hplt
  have hqlt2 : qm.1 < (movies.map Movie.id).length := by simpa using hqlt
  have h1 : (movies.map Movie.id)[pm.1] = (movies.map Movie.id)[qm.1] := by
    rw [List.getElem_map, List.getElem_map, hpval, hqval]
    exact hid
  exact (List.Nodup.getElem_inj_iff hids).mp h1

/-- C6: on a successful run the returned list equals the sorted series
mapped to output rows; it has exactly min(top_n, candidate count) rows —
fewer than top_n only when the candidate set is smaller, with no padding
and no error; scores are weakly descending (NaN scores, which arise only
in degenerate constant-row inputs, sort last); with distinct catalog ids
the returned movies are pairwise distinct; and entries with equal defined
scores appear in ORIGINAL catalog row order: the pandas descending sort
reverses the values before and the indexer after a stable ascending
argsort, so it is itself stable, exactly as the claim states. -/
theorem recommend_output_sorted_and_exact (g : List String)
    (fp ft : Int → Option String) (u : Nat) (title : String)
    (movies : List Movie) (preds : List (Nat × List (Nat × ℚ)))
    (sim : List (List ℚ)) (n : Nat) (a : ℚ)
    (ur : Nat × List (Nat × ℚ)) (seed : Nat × Movie) (simRow : List ℚ)
    (recs : List RecRow)
    (hseed : (candidates g movies).any (fun p => p.2.title == title) = true)
    (hu : preds.find? (fun r => r.1 == u) = some ur)
    (hfind : (candidates g movies).find? (fun p => p.2.title == title) =
      some seed)
    (hsim : sim.get? seed.1 = some simRow)
    (hlen : (candidates g movies).length = (minmaxNorm simRow).length)
    (hok : hybrid_recommend g fp ft u title movies preds sim n a = .ok recs)
    (hids : (movies.map Movie.id).Nodup) :
    recs = ((sortDescNaLast (hybridSeries a ur.2
        ((candidates g movies).map Prod.fst) simRow)).take n).map
        (locRow fp ft (candidates g movies)) ∧
    recs.length = min n (candidates g movies).length ∧
    List.Pairwise scoreGe (recs.map RecRow.hybrid_score) ∧
    (recs.map RecRow.id).Nodup ∧
    List.Pairwise
      (fun p q : Nat × F => ∀ v : ℚ, p.2 = some v → q.2 = some v → p.1 < q.1)
      ((sortDescNaLast (hybridSeries a ur.2
        ((candidates g movies).map Prod.fst) simRow)).take n) := by
  set labels := (candidates g movies).map Prod.fst with hlabels
  set hyb := hybridSeries a ur.2 labels simRow with hhyb
  set S := sortDescNaLast hyb with hS
  have hlen2 : labels.length = (minmaxNorm simRow).length := by
    rw [hlabels, List.length_map]
    exact hlen
  have hmapfst : hyb.map Prod.fst = labels :=
    hybridSeries_map_fst a ur.2 labels simRow hlen2
  have hpairh : List.Pairwise (fun x y : Nat × F => x.1 < y.1) hyb := by
    have hcp := candidates_labels_pairwise g movies
    rw [← hlabels, ← hmapfst] at hcp
    exact List.pairwise_map.mp hcp
  have hsorted : List.Pairwise recPrec S := sortDescNaLast_sorted hpairh
  have hperm : List.Perm S hyb := sortDescNaLast_perm hyb
  have hSlen : S.length = (candidates g movies).length := by
    rw [hperm.length_eq, hybridSeries_length a ur.2 labels simRow hlen2,
      hlabels, List.length_map]
  have hSfstnodup : (S.map Prod.fst).Nodup := by
    refine ((hperm.map Prod.fst).nodup_iff).mpr ?_
    rw [hmapfst, hlabels]
    exact candidates_labels_nodup g movies
  have htakepair : List.Pairwise recPrec (S.take n) :=
    hsorted.sublist (List.take_sublist n S)
  have htakefst : ((S.take n).map Prod.fst).Nodup :=
    List.Nodup.sublist ((List.take_sublist n S).map Prod.fst) hSfstnodup
  have htakend : (S.take n).Nodup := List.Nodup.of_map Prod.fst htakefst
  have hrecs : recs = (S.take n).map (locRow fp ft (candidates g movies)) := by
    rw [hybrid_recommend_ok_eq g fp ft u title movies preds sim n a ur seed
      simRow hseed hu hfind hsim hlen] at hok
    exact mapLoc_ok_eq hok
  have hmemlab : ∀ p ∈ S.take n, p.1 ∈ labels := by
    intro p hp
    have h1 : p ∈ hyb := hperm.mem_iff.mp (List.mem_of_mem_take hp)
    rw [← hmapfst]
    exact List.mem_map_of_mem Prod.fst h1
  refine ⟨hrecs, ?_, ?_, ?_, ?_⟩
  · rw [hrecs, List.length_map, List.length_take, hSlen]
  · rw [hrecs, List.map_map]
    have hcomp : (RecRow.hybrid_score ∘ locRow fp ft (candidates g movies)) =
        Prod.snd := by
      funext p
      exact locRow_score fp ft (candidates g movies) p
    rw [hcomp, List.pairwise_map]
    exact htakepair.imp (fun h => recPrec_scoreGe h)
  · rw [hrecs, List.map_map]
    refine List.Nodup.map_on ?_ htakend
    intro p hp q hq hpq
    obtain ⟨pm, hpm, hpm1, hpmmem⟩ := find?_label_exists (hmemlab p hp)
    obtain ⟨qm, hqm, hqm1, hqmmem⟩ := find?_label_exists (hmemlab q hq)
    simp only [Function.comp_apply, locRow, hpm, hqm] at hpq
    have heq := candidates_id_injective hids hpmmem hqmmem hpq
    have hfst : p.1 = q.1 := by
      rw [← hpm1, ← hqm1]
      exact heq
    exact List.inj_on_of_nodup_map htakefst hp hq hfst
  · refine (htakepair.and htakend).imp ?_
    rintro ⟨i, s⟩ ⟨j, t⟩ ⟨hrec, hne⟩ v hv hw
    simp only at hv hw
    subst hv
    subst hw
    simp only [recPrec] at hrec
    have hij : i ≠ j := fun he => hne (by rw [he])
    rcases hrec with h1 | ⟨_, h2⟩
    · exact absurd h1 (lt_irrefl v)
    · omega

end MovieRec

namespace MovieRec

/-- Witness for recommend_output_sorted_and_exact at a concrete
three-movie run with a tie: with seed A and alpha 0 the content scores
are [1, 0, 0], B and C tie at 0 and come back in original catalog order;
top_n 10 exceeds the candidate count 3 and exactly 3 rows come back. -/
theorem recommend_output_sorted_and_exact_witness :
    ([⟨"A", none, none, some 1, 100⟩, ⟨"B", none, none, some 0, 101⟩,
      ⟨"C", none, none, some 0, 102⟩] : List RecRow).length =
      min 10 (candidates []
        [⟨100, "A", ["Action"]⟩, ⟨101, "B", ["Drama"]⟩,
         ⟨102, "C", ["Action"]⟩]).length :=
  (recommend_output_sorted_and_exact [] (fun _ => none) (fun _ => none) 7 "A"
    [⟨100, "A", ["Action"]⟩, ⟨101, "B", ["Drama"]⟩, ⟨102, "C", ["Action"]⟩]
    [(7, [(0, 0), (1, 1), (2, 2)])]
    [[2, 1, 1], [1, 2, 1], [1, 1, 2]] 10 0
    (7, [(0, 0), (1, 1), (2, 2)]) (0, ⟨100, "A", ["Action"]⟩) [2, 1, 1]
    [⟨"A", none, none, some 1, 100⟩, ⟨"B", none, none, some 0, 101⟩,
     ⟨"C", none, none, some 0, 102⟩]
    (by decide) (by decide) (by decide) (by decide)
    (by rw [minmaxNorm_length]; decide)
    (by norm_num [hybrid_recommend, candidates, withLabels, withLabelsFrom,
      List.find?_cons, minmaxNorm, vMax, vMin, hybridSeries, alignCf, cfVal,
      normRow, sortDescNaLast, List.insertionSort, List.orderedInsert, keyLe,
      fadd, smul, mapLoc, Except.map])
    (by decide)).2.1

end MovieRec

namespace MovieRec

theorem hybridSeries_zero_eq_content (row : List (Nat × ℚ))
    (labels : List Nat) (simRow : List ℚ)
    (hl : labels.length = (minmaxNorm simRow).length)
    (hcf : ∀ p ∈ alignCf row labels, p.2.isSome) :
    hybridSeries 0 row labels simRow = labels.zip (minmaxNorm simRow) := by
  apply List.ext_getElem
  · rw [hybridSeries_length 0 row labels simRow hl, List.length_zip]
    omega
  · intro i h1 h2
    have hi : i < labels.length := by
      rw [hybridSeries_length 0 row labels simRow hl] at h1
      exact h1
    have hi3 : i < (minmaxNorm simRow).length := hl ▸ hi
    rw [hybridSeries_getElem 0 row labels simRow hl i hi h1 hi3,
      List.getElem_zip]
    have hmem : (labels[i], cfVal row labels[i]) ∈ alignCf row labels := by
      simp only [alignCf]
      exact List.mem_map_of_mem _ (labels.getElem_mem hi)
    obtain ⟨qc, hqc⟩ := Option.isSome_iff_exists.mp (hcf _ hmem)
    simp only at hqc
    cases hcn : (minmaxNorm simRow)[i] with
    | none => simp [hqc, smul, fadd]
    | some c =>
      simp only [hqc, smul, fadd, Prod.mk.injEq, true_and]
      congr 1
      ring

theorem hybridSeries_one_eq_cf (row : List (Nat × ℚ))
    (labels : List Nat) (simRow : List ℚ)
    (hl : labels.length = (minmaxNorm simRow).length)
    (hcn : ∀ x ∈ minmaxNorm simRow, x.isSome) :
    hybridSeries 1 row labels simRow = alignCf row labels := by
  apply List.ext_getElem
  · rw [hybridSeries_length 1 row labels simRow hl, alignCf, List.length_map]
  · intro i h1 h2
    have hi : i < labels.length := by
      rw [hybridSeries_length 1 row labels simRow hl] at h1
      exact h1
    have hi3 : i < (minmaxNorm simRow).length := hl ▸ hi
    rw [hybridSeries_getElem 1 row labels simRow hl i hi h1 hi3]
    have hgoal : (alignCf row labels)[i] =
        (labels[i], cfVal row labels[i]) := by
      simp [alignCf]
    rw [hgoal]
    obtain ⟨c, hc⟩ := Option.isSome_iff_exists.mp
      (hcn _ (List.getElem_mem (hl ▸ hi)))
    rw [hc]
    cases hcv : cfVal row labels[i] with
    | none => simp [smul, fadd]
    | some a =>
      simp only [smul, fadd, Prod.mk.injEq, true_and]
      congr 1
      ring

/-- C7 (amended): on a successful run, with alpha 0 the result equals the
ranking by the normalized content-similarity series alone PROVIDED every
aligned CF entry is defined (the user row is not constant); with alpha 1
it equals the ranking by the aligned normalized CF series alone PROVIDED
every normalized similarity entry is defined (the seed row is not
constant).  When the excluded signal is NaN, 0 * NaN = NaN poisons the
blend and the equality fails (see the counterexample). -/
theorem recommend_alpha_extremes (g : List String)
    (fp ft : Int → Option String) (u : Nat) (title : String)
    (movies : List Movie) (preds : List (Nat × List (Nat × ℚ)))
    (sim : List (List ℚ)) (n : Nat)
    (ur : Nat × List (Nat × ℚ)) (seed : Nat × Movie) (simRow : List ℚ)
    (hseed : (candidates g movies).any (fun p => p.2.title == title) = true)
    (hu : preds.find? (fun r => r.1 == u) = some ur)
    (hfind : (candidates g movies).find? (fun p => p.2.title == title) =
      some seed)
    (hsim : sim.get? seed.1 = some simRow)
    (hlen : (candidates g movies).length = (minmaxNorm simRow).length) :
    ((∀ p ∈ alignCf ur.2 ((candidates g movies).map Prod.fst), p.2.isSome) →
      hybrid_recommend g fp ft u title movies preds sim n 0 =
        mapLoc fp ft (candidates g movies)
          ((sortDescNaLast (((candidates g movies).map Prod.fst).zip
            (minmaxNorm simRow))).take n)) ∧
    ((∀ x ∈ minmaxNorm simRow, x.isSome) →
      hybrid_recommend g fp ft u title movies preds sim n 1 =
        mapLoc fp ft (candidates g movies)
          ((sortDescNaLast (alignCf ur.2
            ((candidates g movies).map Prod.fst))).take n)) := by
  have hlen2 : ((candidates g movies).map Prod.fst).length =
      (minmaxNorm simRow).length := by
    rw [List.length_map]
    exact hlen
  constructor
  · intro hcf
    rw [hybrid_recommend_ok_eq g fp ft u title movies preds sim n 0 ur seed
      simRow hseed hu hfind hsim hlen,
      hybridSeries_zero_eq_content ur.2 _ simRow hlen2 hcf]
  · intro hcn
    rw [hybrid_recommend_ok_eq g fp ft u title movies preds sim n 1 ur seed
      simRow hseed hu hfind hsim hlen,
      hybridSeries_one_eq_cf ur.2 _ simRow hlen2 hcn]

end MovieRec

namespace MovieRec

/-- Witness for recommend_alpha_extremes: a two-movie run with a
non-constant CF row and a non-constant similarity row, at alpha 0 and
alpha 1. -/
theorem recommend_alpha_extremes_witness :
    (hybrid_recommend [] (fun _ => none) (fun _ => none) 7 "A"
      [⟨1, "A", ["Action"]⟩, ⟨2, "B", ["Drama"]⟩]
      [(7, [(0, 1), (1, 2)])] [[4, 1], [1, 4]] 10 0 =
      mapLoc (fun _ => none) (fun _ => none)
        (candidates [] [⟨1, "A", ["Action"]⟩, ⟨2, "B", ["Drama"]⟩])
        ((sortDescNaLast (((candidates []
            [⟨1, "A", ["Action"]⟩, ⟨2, "B", ["Drama"]⟩]).map Prod.fst).zip
          (minmaxNorm [4, 1]))).take 10)) ∧
    (hybrid_recommend [] (fun _ => none) (fun _ => none) 7 "A"
      [⟨1, "A", ["Action"]⟩, ⟨2, "B", ["Drama"]⟩]
      [(7, [(0, 1), (1, 2)])] [[4, 1], [1, 4]] 10 1 =
      mapLoc (fun _ => none) (fun _ => none)
        (candidates [] [⟨1, "A", ["Action"]⟩, ⟨2, "B", ["Drama"]⟩])
        ((sortDescNaLast (alignCf [(0, 1), (1, 2)]
          ((candidates []
            [⟨1, "A", ["Action"]⟩, ⟨2, "B", ["Drama"]⟩]).map Prod.fst))).take
          10)) := by
  have hbase := recommend_alpha_extremes [] (fun _ => none) (fun _ => none)
    7 "A" [⟨1, "A", ["Action"]⟩, ⟨2, "B", ["Drama"]⟩]
    [(7, [(0, 1), (1, 2)])] [[4, 1], [1, 4]] 10
    (7, [(0, 1), (1, 2)]) (0, ⟨1, "A", ["Action"]⟩) [4, 1]
    (by decide) (by decide) (by decide) (by decide)
    (by rw [minmaxNorm_length]; decide)
  have hlab : (candidates []
      [⟨1, "A", ["Action"]⟩, ⟨2, "B", ["Drama"]⟩]).map Prod.fst = [0, 1] := by
    decide
  refine ⟨hbase.1 ?_, hbase.2 ?_⟩
  · rw [hlab]
    have h : alignCf [(0, 1), (1, 2)] [0, 1] = [(0, some 0), (1, some 1)] := by
      simp [alignCf, cfVal, normRow, minmaxNorm, vMax, vMin, List.find?_cons]
      norm_num
    rw [h]
    intro p hp
    fin_cases hp <;> simp
  · have h : minmaxNorm [(4:ℚ), 1] = [some 1, some 0] := by
      simp [minmaxNorm, vMax, vMin]
      norm_num
    rw [h]
    intro x hx
    fin_cases hx <;> simp

/-- C7 (counterexample): with a CONSTANT CF row and alpha 0, the blend is
0 * NaN + 1 * content = NaN everywhere, so the output keeps the original
catalog order [A, B] — while the ranking by the normalized content series
alone is [B, A].  Pure-content ranking at alpha 0 therefore fails on the
degenerate row the claim quantifies over. -/
theorem alpha_zero_differs_on_constant_cf_row :
    hybrid_recommend [] (fun _ => none) (fun _ => none) 7 "A"
      [⟨1, "A", ["Action"]⟩, ⟨2, "B", ["Drama"]⟩]
      [(7, [(0, 5), (1, 5)])] [[1, 2], [2, 1]] 10 0 =
      .ok [⟨"A", none, none, none, 1⟩, ⟨"B", none, none, none, 2⟩] ∧
    mapLoc (fun _ => none) (fun _ => none)
      (candidates [] [⟨1, "A", ["Action"]⟩, ⟨2, "B", ["Drama"]⟩])
      ((sortDescNaLast (((candidates []
          [⟨1, "A", ["Action"]⟩, ⟨2, "B", ["Drama"]⟩]).map Prod.fst).zip
        (minmaxNorm [1, 2]))).take 10) =
      .ok [⟨"B", none, none, some 1, 2⟩, ⟨"A", none, none, some 0, 1⟩] ∧
    ([⟨"A", none, none, none, 1⟩, ⟨"B", none, none, none, 2⟩] : List RecRow) ≠
      [⟨"B", none, none, some 1, 2⟩, ⟨"A", none, none, some 0, 1⟩] := by
  refine ⟨?_, ?_, by simp⟩
  · norm_num [hybrid_recommend, candidates, withLabels, withLabelsFrom,
      List.find?_cons, minmaxNorm, vMax, vMin, hybridSeries, alignCf, cfVal,
      normRow, sortDescNaLast, List.insertionSort, List.orderedInsert, keyLe,
      fadd, smul, mapLoc, Except.map]
  · norm_num [candidates, withLabels, withLabelsFrom,
      List.find?_cons, minmaxNorm, vMax, vMin,
      sortDescNaLast, List.insertionSort, List.orderedInsert, keyLe,
      mapLoc, Except.map]

end MovieRec

namespace MovieRec

/-! ## Decomposing the row minimum and maximum at one entry -/

theorem vMin_cons {x : ℚ} {l : List ℚ} (h : l ≠ []) :
    vMin (x :: l) = min x (vMin l) := by
  match l, h with
  | y :: ys, _ => rfl

theorem vMax_cons {x : ℚ} {l : List ℚ} (h : l ≠ []) :
    vMax (x :: l) = max x (vMax l) := by
  match l, h with
  | y :: ys, _ => rfl

theorem vMin_append_cons :
    ∀ (P : List ℚ) (t : ℚ) (Q : List ℚ), P ++ Q ≠ [] →
    vMin (P ++ t :: Q) = min t (vMin (P ++ Q))
  | [], t, Q, h => by
      simp only [List.nil_append] at h ⊢
      exact vMin_cons h
  | p :: P', t, Q, h => by
      by_cases h2 : P' ++ Q = []
      · obtain ⟨hP, hQ⟩ := List.append_eq_nil.mp h2
        subst hP
        subst hQ
        simp only [List.nil_append, List.cons_append]
        show vMin [p, t] = min t (vMin [p])
        show min p (vMin [t]) = min t (vMin [p])
        show min p t = min t p
        exact min_comm p t
      · have hne : P' ++ t :: Q ≠ [] := by simp
        calc vMin ((p :: P') ++ t :: Q)
            = min p (vMin (P' ++ t :: Q)) := vMin_cons hne
          _ = min p (min t (vMin (P' ++ Q))) := by
              rw [vMin_append_cons P' t Q h2]
          _ = min t (min p (vMin (P' ++ Q))) := by
              rw [min_left_comm]
          _ = min t (vMin ((p :: P') ++ Q)) := by
              rw [List.cons_append, vMin_cons h2]

theorem vMax_append_cons :
    ∀ (P : List ℚ) (t : ℚ) (Q : List ℚ), P ++ Q ≠ [] →
    vMax (P ++ t :: Q) = max t (vMax (P ++ Q))
  | [], t, Q, h => by
      simp only [List.nil_append] at h ⊢
      exact vMax_cons h
  | p :: P', t, Q, h => by
      by_cases h2 : P' ++ Q = []
      · obtain ⟨hP, hQ⟩ := List.append_eq_nil.mp h2
        subst hP
        subst hQ
        simp only [List.nil_append, List.cons_append]
        show vMax [p, t] = max t (vMax [p])
        show max p (vMax [t]) = max t (vMax [p])
        show max p t = max t p
        exact max_comm p t
      · have hne : P' ++ t :: Q ≠ [] := by simp
        calc vMax ((p :: P') ++ t :: Q)
            = max p (vMax (P' ++ t :: Q)) := vMax_cons hne
          _ = max p (max t (vMax (P' ++ Q))) := by
              rw [vMax_append_cons P' t Q h2]
          _ = max t (max p (vMax (P' ++ Q))) := by
              rw [max_left_comm]
          _ = max t (vMax ((p :: P') ++ Q)) := by
              rw [List.cons_append, vMax_cons h2]

/-! ## The reindexed value at one label, in closed form -/

theorem zip_map_find? (f : ℚ → F) :
    ∀ (row : List (Nat × ℚ)), (row.map Prod.fst).Nodup →
    ∀ {i : Nat} {v : ℚ}, (i, v) ∈ row →
    ((row.map Prod.fst).zip ((row.map Prod.snd).map f)).find?
      (fun p => p.1 == i) = some (i, f v)
  | [], _, i, v, hmem => absurd hmem (List.not_mem_nil _)
  | (a, w) :: rest, hnd, i, v, hmem => by
      simp only [List.map_cons, List.zip_cons_cons, List.find?_cons]
      by_cases hai : a = i
      · subst hai
        have hvw : v = w := by
          rcases List.mem_cons.mp hmem with he | h2
          · exact congrArg Prod.snd he
          · exact absurd (List.mem_map_of_mem Prod.fst h2)
              (by simpa using (List.nodup_cons.mp hnd).1)
        subst hvw
        simp
      · have hbeq : (a == i) = false := by
          simp [hai]
        rw [hbeq]
        simp only [cond_false]
        have h2 : (i, v) ∈ rest := by
          rcases List.mem_cons.mp hmem with he | h2
          · injection he with h _
            exact absurd h.symm hai
          · exact h2
        exact zip_map_find? f rest (List.nodup_cons.mp hnd).2 h2

theorem cfVal_present {row : List (Nat × ℚ)}
    (hnd : (row.map Prod.fst).Nodup) {i : Nat} {v : ℚ}
    (hmem : (i, v) ∈ row)
    (hnc : vMax (row.map Prod.snd) ≠ vMin (row.map Prod.snd)) :
    cfVal row i = some ((v - vMin (row.map Prod.snd)) /
      (vMax (row.map Prod.snd) - vMin (row.map Prod.snd))) := by
  unfold cfVal normRow
  rw [show minmaxNorm (row.map Prod.snd) = (row.map Prod.snd).map
      (fun x => if vMax (row.map Prod.snd) = vMin (row.map Prod.snd) then none
        else some ((x - vMin (row.map Prod.snd)) /
          (vMax (row.map Prod.snd) - vMin (row.map Prod.snd)))) from rfl]
  rw [zip_map_find? _ row hnd hmem]
  simp [if_neg hnc]

theorem cfVal_absent {row : List (Nat × ℚ)} {i : Nat}
    (habs : i ∉ row.map Prod.fst) : cfVal row i = some 0 := by
  unfold cfVal normRow
  have hnone : ((row.map Prod.fst).zip (minmaxNorm (row.map Prod.snd))).find?
      (fun p => p.1 == i) = none := by
    rw [List.find?_eq_none]
    intro x hx
    have hx1 : x.1 ∈ row.map Prod.fst := (List.of_mem_zip hx).1
    simp only [beq_iff_eq]
    intro he
    exact habs (he ▸ hx1)
  rw [hnone]

/-! ## Monotonicity of the normalized difference in the raised score -/

theorem normDiff_mono {t t' w om oM : ℚ} (htt : t ≤ t')
    (hw1 : om ≤ w) (hw2 : w ≤ oM)
    (h1 : min t om < max t oM) (h2 : min t' om < max t' oM) :
    (t - w) / (max t oM - min t om) ≤ (t' - w) / (max t' oM - min t' om) := by
  have hom : om ≤ oM := le_trans hw1 hw2
  rcases eq_or_lt_of_le hom with heq | hlt
  · -- all other values are equal: w = om = oM, each side is -1 or 1
    have hwom : w = om := le_antisymm (heq ▸ hw2) hw1
    subst hwom
    rw [← heq] at h1 h2 ⊢
    have ht : t ≠ w := by
      intro he
      rw [he, min_self, max_self] at h1
      exact lt_irrefl w h1
    have ht' : t' ≠ w := by
      intro he
      rw [he, min_self, max_self] at h2
      exact lt_irrefl w h2
    rcases lt_or_gt_of_ne ht with hlt1 | hgt1
    · have e1 : (t - w) / (max t w - min t w) = -1 := by
        rw [min_eq_left (le_of_lt hlt1), max_eq_right (le_of_lt hlt1)]
        rw [show t - w = -(w - t) by ring, neg_div,
          div_self (ne_of_gt (sub_pos.mpr hlt1))]
      rcases lt_or_gt_of_ne ht' with hlt2 | hgt2
      · have e2 : (t' - w) / (max t' w - min t' w) = -1 := by
          rw [min_eq_left (le_of_lt hlt2), max_eq_right (le_of_lt hlt2)]
          rw [show t' - w = -(w - t') by ring, neg_div,
            div_self (ne_of_gt (sub_pos.mpr hlt2))]
        rw [e1, e2]
      · have e2 : (t' - w) / (max t' w - min t' w) = 1 := by
          rw [min_eq_right (le_of_lt hgt2), max_eq_left (le_of_lt hgt2)]
          rw [div_self (ne_of_gt (sub_pos.mpr hgt2))]
        rw [e1, e2]
        norm_num
    · have hgt2 : t' > w := lt_of_lt_of_le hgt1 htt
      have e1 : (t - w) / (max t w - min t w) = 1 := by
        rw [min_eq_right (le_of_lt hgt1), max_eq_left (le_of_lt hgt1)]
        rw [div_self (ne_of_gt (sub_pos.mpr hgt1))]
      have e2 : (t' - w) / (max t' w - min t' w) = 1 := by
        rw [min_eq_right (le_of_lt hgt2), max_eq_left (le_of_lt hgt2)]
        rw [div_self (ne_of_gt (sub_pos.mpr hgt2))]
      rw [e1, e2]
  · -- om < oM: piecewise in the three regions, chaining at om and oM
    have hdm : (0:ℚ) < oM - om := sub_pos.mpr hlt
    -- region values
    have hL : ∀ x y : ℚ, x ≤ y → y ≤ om →
        (x - w) / (oM - x) ≤ (y - w) / (oM - y) := by
      intro x y hxy hyom
      have hdx : (0:ℚ) < oM - x := by
        have := le_trans hxy hyom
        nlinarith
      have hdy : (0:ℚ) < oM - y := by nlinarith
      rw [div_le_div_iff₀ hdx hdy]
      nlinarith [mul_nonneg (sub_nonneg.mpr hxy) (sub_nonneg.mpr hw2)]
    have hM : ∀ x y : ℚ, x ≤ y →
        (x - w) / (oM - om) ≤ (y - w) / (oM - om) := by
      intro x y hxy
      apply div_le_div_of_nonneg_right ?_ (le_of_lt hdm)
      · nlinarith
    have hR : ∀ x y : ℚ, oM ≤ x → x ≤ y →
        (x - w) / (x - om) ≤ (y - w) / (y - om) := by
      intro x y hoMx hxy
      have hdx : (0:ℚ) < x - om := by nlinarith
      have hdy : (0:ℚ) < y - om := by nlinarith
      rw [div_le_div_iff₀ hdx hdy]
      nlinarith [mul_nonneg (sub_nonneg.mpr hxy) (sub_nonneg.mpr hw1)]
    -- region boundary forms agree; chain through om and oM
    rcases le_total t om with htL | htM1
    · -- t in the left region
      have emint : min t om = t := min_eq_left htL
      have emaxt : max t oM = oM := max_eq_right (le_trans htL (le_of_lt hlt))
      rw [emint, emaxt]
      rcases le_total t' om with htL' | htM1'
      · have emint' : min t' om = t' := min_eq_left htL'
        have emaxt' : max t' oM = oM :=
          max_eq_right (le_trans htL' (le_of_lt hlt))
        rw [emint', emaxt']
        exact hL t t' htt htL'
      · rcases le_total t' oM with htM' | htR'
        · have emint' : min t' om = om := min_eq_right htM1'
          have emaxt' : max t' oM = oM := max_eq_right htM'
          rw [emint', emaxt']
          exact le_trans (hL t om htL (le_refl om)) (hM om t' htM1')
        · have emint' : min t' om = om :=
            min_eq_right (le_trans (le_of_lt hlt) htR')
          have emaxt' : max t' oM = t' := max_eq_left htR'
          rw [emint', emaxt']
          refine le_trans (hL t om htL (le_refl om)) ?_
          refine le_trans (hM om oM (le_of_lt hlt)) ?_
          have hoM : (oM - w) / (oM - om) = (oM - w) / (oM - om) := rfl
          exact hR oM t' (le_refl oM) htR'
    · rcases le_total t oM with htM2 | htR
      · -- t in the middle region
        have emint : min t om = om := min_eq_right htM1
        have emaxt : max t oM = oM := max_eq_right htM2
        rw [emint, emaxt]
        rcases le_total t' oM with htM' | htR'
        · have emint' : min t' om = om :=
            min_eq_right (le_trans htM1 htt)
          have emaxt' : max t' oM = oM := max_eq_right htM'
          rw [emint', emaxt']
          exact hM t t' htt
        · have emint' : min t' om = om :=
            min_eq_right (le_trans (le_of_lt hlt) htR')
          have emaxt' : max t' oM = t' := max_eq_left htR'
          rw [emint', emaxt']
          exact le_trans (hM t oM htM2) (hR oM t' (le_refl oM) htR')
      · -- t in the right region
        have emint : min t om = om :=
          min_eq_right (le_trans (le_of_lt hlt) htR)
        have emaxt : max t oM = t := max_eq_left htR
        have emint' : min t' om = om :=
          min_eq_right (le_trans (le_trans (le_of_lt hlt) htR) htt)
        have emaxt' : max t' oM = t' := max_eq_left (le_trans htR htt)
        rw [emint, emaxt, emint', emaxt']
        exact hR t t' htR htt

/-- Monotonicity of the normalized value of the raised score itself
(the comparison against an absent candidate, whose aligned score is the
constant fill 0). -/
theorem normSelf_mono {t t' om oM : ℚ} (htt : t ≤ t') (_hom : om ≤ oM)
    (h1 : min t om < max t oM) (h2 : min t' om < max t' oM) :
    (t - min t om) / (max t oM - min t om) ≤
    (t' - min t' om) / (max t' oM - min t' om) := by
  rcases le_total t' om with htL' | htM1'
  · -- both on the left: both numerators vanish
    have htL : t ≤ om := le_trans htt htL'
    rw [min_eq_left htL, min_eq_left htL']
    simp
  · have hd2 : (0:ℚ) < max t' oM - min t' om := sub_pos.mpr h2
    have hnum' : 0 ≤ t' - min t' om := by
      have := min_le_left t' om
      nlinarith
    rcases le_total t om with htL | htM1
    · -- numerator on the left vanishes, right side is nonnegative
      rw [min_eq_left htL]
      simp only [sub_self, zero_div]
      exact div_nonneg hnum' (le_of_lt hd2)
    · rcases le_total t oM with htM2 | htR
      · -- t in the middle region: here om < oM
        have homlt : om < oM := by
          rw [min_eq_right htM1, max_eq_right htM2] at h1
          exact h1
        rw [min_eq_right htM1, max_eq_right htM2]
        rcases le_total t' oM with htM' | htR'
        · rw [min_eq_right htM1', max_eq_right htM']
          apply div_le_div_of_nonneg_right ?_ (le_of_lt (sub_pos.mpr homlt))
          · nlinarith
        · rw [min_eq_right htM1', max_eq_left htR']
          rw [div_self (by nlinarith : t' - om ≠ 0),
            div_le_one (sub_pos.mpr homlt)]
          nlinarith
      · -- t (and hence t') at or above the maximum of the others: both 1
        have homt : om < t := by
          rw [min_eq_right htM1, max_eq_left htR] at h1
          exact h1
        rw [min_eq_right htM1, max_eq_left htR,
          min_eq_right htM1', max_eq_left (le_trans htR htt)]
        rw [div_self (by nlinarith : t - om ≠ 0),
          div_self (by nlinarith : t' - om ≠ 0)]

end MovieRec

namespace MovieRec

theorem mem_strip {pre post : List (Nat × ℚ)} {j k : Nat} {t w : ℚ}
    (hkj : k ≠ j) (hmem : (k, w) ∈ pre ++ (j, t) :: post) :
    (k, w) ∈ pre ++ post := by
  rcases List.mem_append.mp hmem with h | h
  · exact List.mem_append_left _ h
  · rcases List.mem_cons.mp h with he | h2
    · exact absurd (congrArg Prod.fst he) hkj
    · exact List.mem_append_right _ h2

theorem mem_unstrip {pre post : List (Nat × ℚ)} {j k : Nat} {t w : ℚ}
    (hmem : (k, w) ∈ pre ++ post) : (k, w) ∈ pre ++ (j, t) :: post := by
  rcases List.mem_append.mp hmem with h | h
  · exact List.mem_append_left _ h
  · exact List.mem_append_right _ (List.mem_cons_of_mem _ h)

/-- Raising the raw CF score of candidate j (all other entries fixed, both
rows non-constant) never decreases the gap between the reindexed
normalized score of j and that of any other candidate k. -/
theorem cfVal_diff_mono (pre post : List (Nat × ℚ)) (j : Nat) (t t' : ℚ)
    (htt : t ≤ t')
    (hnd : ((pre ++ (j, t) :: post).map Prod.fst).Nodup)
    (hnc : vMax ((pre ++ (j, t) :: post).map Prod.snd) ≠
      vMin ((pre ++ (j, t) :: post).map Prod.snd))
    (hnc' : vMax ((pre ++ (j, t') :: post).map Prod.snd) ≠
      vMin ((pre ++ (j, t') :: post).map Prod.snd))
    (k : Nat) (hkj : k ≠ j) :
    ∃ qj qk qj' qk' : ℚ,
      cfVal (pre ++ (j, t) :: post) j = some qj ∧
      cfVal (pre ++ (j, t) :: post) k = some qk ∧
      cfVal (pre ++ (j, t') :: post) j = some qj' ∧
      cfVal (pre ++ (j, t') :: post) k = some qk' ∧
      qj - qk ≤ qj' - qk' := by
  have hfst : (pre ++ (j, t') :: post).map Prod.fst =
      (pre ++ (j, t) :: post).map Prod.fst := by
    simp
  have hnd' : ((pre ++ (j, t') :: post).map Prod.fst).Nodup := by
    rw [hfst]
    exact hnd
  have hvals : (pre ++ (j, t) :: post).map Prod.snd =
      pre.map Prod.snd ++ t :: post.map Prod.snd := by
    simp
  have hvals' : (pre ++ (j, t') :: post).map Prod.snd =
      pre.map Prod.snd ++ t' :: post.map Prod.snd := by
    simp
  have hothne : pre.map Prod.snd ++ post.map Prod.snd ≠ [] := by
    intro he
    obtain ⟨hP, hQ⟩ := List.append_eq_nil.mp he
    have hpre : pre = [] := by
      cases pre with
      | nil => rfl
      | cons x xs => simp at hP
    have hpost : post = [] := by
      cases post with
      | nil => rfl
      | cons x xs => simp at hQ
    subst hpre
    subst hpost
    simp only [List.nil_append, List.map_cons, List.map_nil] at hnc
    exact hnc rfl
  set om := vMin (pre.map Prod.snd ++ post.map Prod.snd) with hom_def
  set oM := vMax (pre.map Prod.snd ++ post.map Prod.snd) with hoM_def
  have hom : om ≤ oM := vMin_le_vMax hothne
  have hm : vMin ((pre ++ (j, t) :: post).map Prod.snd) = min t om := by
    rw [hvals]
    exact vMin_append_cons _ t _ hothne
  have hM : vMax ((pre ++ (j, t) :: post).map Prod.snd) = max t oM := by
    rw [hvals]
    exact vMax_append_cons _ t _ hothne
  have hm' : vMin ((pre ++ (j, t') :: post).map Prod.snd) = min t' om := by
    rw [hvals']
    exact vMin_append_cons _ t' _ hothne
  have hM' : vMax ((pre ++ (j, t') :: post).map Prod.snd) = max t' oM := by
    rw [hvals']
    exact vMax_append_cons _ t' _ hothne
  have h1 : min t om < max t oM := by
    rw [← hm, ← hM]
    refine lt_of_le_of_ne ?_ (Ne.symm hnc)
    apply vMin_le_vMax
    rw [hvals]
    simp
  have h2 : min t' om < max t' oM := by
    rw [← hm', ← hM']
    refine lt_of_le_of_ne ?_ (Ne.symm hnc')
    apply vMin_le_vMax
    rw [hvals']
    simp
  have hjmem : (j, t) ∈ pre ++ (j, t) :: post :=
    List.mem_append_right _ (List.mem_cons_self _ _)
  have hjmem' : (j, t') ∈ pre ++ (j, t') :: post :=
    List.mem_append_right _ (List.mem_cons_self _ _)
  have hqj := cfVal_present hnd hjmem hnc
  have hqj' := cfVal_present hnd' hjmem' hnc'
  rw [hm, hM] at hqj
  rw [hm', hM'] at hqj'
  by_cases hk : k ∈ (pre ++ (j, t) :: post).map Prod.fst
  · -- candidate k present in the row, with the same raw value in both
    obtain ⟨p, hp, hp1⟩ := List.mem_map.mp hk
    have hkw : (k, p.2) ∈ pre ++ (j, t) :: post := by
      rw [← hp1]
      exact hp
    have hkst : (k, p.2) ∈ pre ++ post := mem_strip hkj hkw
    have hkw' : (k, p.2) ∈ pre ++ (j, t') :: post := mem_unstrip hkst
    have hqk := cfVal_present hnd hkw hnc
    have hqk' := cfVal_present hnd' hkw' hnc'
    rw [hm, hM] at hqk
    rw [hm', hM'] at hqk'
    have hwmem : p.2 ∈ pre.map Prod.snd ++ post.map Prod.snd := by
      have hw := List.mem_map_of_mem Prod.snd hkst
      simpa using hw
    have hw1 : om ≤ p.2 := vMin_le_of_mem hwmem
    have hw2 : p.2 ≤ oM := le_vMax_of_mem hwmem
    refine ⟨_, _, _, _, hqj, hqk, hqj', hqk', ?_⟩
    rw [div_sub_div_same, div_sub_div_same]
    have e1 : t - min t om - (p.2 - min t om) = t - p.2 := by ring
    have e2 : t' - min t' om - (p.2 - min t' om) = t' - p.2 := by ring
    rw [e1, e2]
    exact normDiff_mono htt hw1 hw2 h1 h2
  · -- candidate k absent from the row: fill value 0 on both sides
    have hk' : k ∉ (pre ++ (j, t') :: post).map Prod.fst := by
      rw [hfst]
      exact hk
    refine ⟨_, _, _, _, hqj, cfVal_absent hk, hqj', cfVal_absent hk', ?_⟩
    have := normSelf_mono htt hom h1 h2
    linarith

/-- Transfer of the strict sort precedence between candidates j and k
when the aligned CF gap does not shrink and the content values stay
fixed. -/
theorem strict_recPrec_shift {j k : Nat} {qj qk qj' qk' : ℚ} {cj ck : F}
    (a : ℚ) (ha : 0 < a) (hdiff : qj - qk ≤ qj' - qk')
    (hstrict :
      recPrec (j, fadd (smul a (some qj)) (smul (1 - a) cj))
        (k, fadd (smul a (some qk)) (smul (1 - a) ck)) ∧
      ¬ recPrec (k, fadd (smul a (some qk)) (smul (1 - a) ck))
        (j, fadd (smul a (some qj)) (smul (1 - a) cj))) :
    recPrec (j, fadd (smul a (some qj')) (smul (1 - a) cj))
      (k, fadd (smul a (some qk')) (smul (1 - a) ck)) ∧
    ¬ recPrec (k, fadd (smul a (some qk')) (smul (1 - a) ck))
      (j, fadd (smul a (some qj')) (smul (1 - a) cj)) := by
  cases cj with
  | none =>
    cases ck with
    | none =>
      simp only [smul, fadd, recPrec] at hstrict ⊢
      exact hstrict
    | some d =>
      exact absurd hstrict.1 (by simp [smul, fadd, recPrec])
  | some c =>
    cases ck with
    | none =>
      simp only [smul, fadd, recPrec]
      exact ⟨trivial, fun h => h⟩
    | some d =>
      simp only [smul, fadd, recPrec] at hstrict ⊢
      obtain ⟨hfwd, hbwd⟩ := hstrict
      push_neg at hbwd
      obtain ⟨hle, himp⟩ := hbwd
      have hgap : a * qj + (1 - a) * c - (a * qk + (1 - a) * d) ≤
          a * qj' + (1 - a) * c - (a * qk' + (1 - a) * d) := by
        nlinarith
      rcases lt_or_eq_of_le hle with hlt | heq2
      · have hlt' : a * qk' + (1 - a) * d < a * qj' + (1 - a) * c := by
          nlinarith
        refine ⟨Or.inl hlt', ?_⟩
        push_neg
        exact ⟨le_of_lt hlt', fun h2 => absurd (h2 ▸ hlt') (lt_irrefl _)⟩
      · have hkj2 : j < k := himp heq2.symm
        have hge' : a * qk' + (1 - a) * d ≤ a * qj' + (1 - a) * c := by
          nlinarith
        rcases lt_or_eq_of_le hge' with h | h
        · refine ⟨Or.inl h, ?_⟩
          push_neg
          exact ⟨le_of_lt h, fun h2 => absurd (h2 ▸ h) (lt_irrefl _)⟩
        · refine ⟨Or.inr ⟨h, Nat.le_of_lt hkj2⟩, ?_⟩
          push_neg
          exact ⟨le_of_eq h, fun _ => hkj2⟩

end MovieRec

namespace MovieRec

/-- C8 (amended): for fixed alpha > 0, raising the raw CF score of one
candidate j while every other input is unchanged — provided the CF row is
non-constant both before and after the raise, so that no NaN is
introduced — never demotes j below any other candidate k in the
descending ranking that hybrid_recommend sorts and returns; the last two
conjuncts tie the sorted series to the value hybrid_recommend returns on
each side.  (When the raise makes the row constant, the whole blend
becomes NaN and the ranking collapses to catalog order, which can demote
j: see the counterexample.) -/
theorem raising_cf_never_demotes (g : List String)
    (fp ft : Int → Option String) (u : Nat) (title : String)
    (movies : List Movie) (preds preds' : List (Nat × List (Nat × ℚ)))
    (sim : List (List ℚ)) (n : Nat) (a : ℚ)
    (pre post : List (Nat × ℚ)) (j k : Nat) (t t' : ℚ)
    (seed : Nat × Movie) (simRow : List ℚ) (u0 u0' : Nat)
    (ha : 0 < a) (htt : t ≤ t')
    (hnd : ((pre ++ (j, t) :: post).map Prod.fst).Nodup)
    (hnc : vMax ((pre ++ (j, t) :: post).map Prod.snd) ≠
      vMin ((pre ++ (j, t) :: post).map Prod.snd))
    (hnc' : vMax ((pre ++ (j, t') :: post).map Prod.snd) ≠
      vMin ((pre ++ (j, t') :: post).map Prod.snd))
    (hseed : (candidates g movies).any (fun p => p.2.title == title) = true)
    (hu : preds.find? (fun r => r.1 == u) = some (u0, pre ++ (j, t) :: post))
    (hu' : preds'.find? (fun r => r.1 == u) =
      some (u0', pre ++ (j, t') :: post))
    (hfind : (candidates g movies).find? (fun p => p.2.title == title) =
      some seed)
    (hsim : sim.get? seed.1 = some simRow)
    (hlen : (candidates g movies).length = (minmaxNorm simRow).length)
    (hj : j ∈ (candidates g movies).map Prod.fst)
    (hk : k ∈ (candidates g movies).map Prod.fst)
    (hkj : k ≠ j) :
    (labelPos j (sortDescNaLast (hybridSeries a (pre ++ (j, t) :: post)
        ((candidates g movies).map Prod.fst) simRow)) <
      labelPos k (sortDescNaLast (hybridSeries a (pre ++ (j, t) :: post)
        ((candidates g movies).map Prod.fst) simRow)) →
      labelPos j (sortDescNaLast (hybridSeries a (pre ++ (j, t') :: post)
        ((candidates g movies).map Prod.fst) simRow)) <
      labelPos k (sortDescNaLast (hybridSeries a (pre ++ (j, t') :: post)
        ((candidates g movies).map Prod.fst) simRow))) ∧
    hybrid_recommend g fp ft u title movies preds sim n a =
      mapLoc fp ft (candidates g movies)
        ((sortDescNaLast (hybridSeries a (pre ++ (j, t) :: post)
          ((candidates g movies).map Prod.fst) simRow)).take n) ∧
    hybrid_recommend g fp ft u title movies preds' sim n a =
      mapLoc fp ft (candidates g movies)
        ((sortDescNaLast (hybridSeries a (pre ++ (j, t') :: post)
          ((candidates g movies).map Prod.fst) simRow)).take n) := by
  have hlen2 : ((candidates g movies).map Prod.fst).length =
      (minmaxNorm simRow).length := by
    rw [List.length_map]
    exact hlen
  have hpairlab : List.Pairwise (fun i1 i2 : Nat => i1 < i2)
      ((candidates g movies).map Prod.fst) :=
    candidates_labels_pairwise g movies
  have hlabnodup : ((candidates g movies).map Prod.fst).Nodup :=
    candidates_labels_nodup g movies
  have hpairH : ∀ r : List (Nat × ℚ),
      List.Pairwise (fun x y : Nat × F => x.1 < y.1)
        (hybridSeries a r ((candidates g movies).map Prod.fst) simRow) := by
    intro r
    have hmf := hybridSeries_map_fst a r ((candidates g movies).map Prod.fst)
      simRow hlen2
    rw [← hmf] at hpairlab
    exact List.pairwise_map.mp hpairlab
  have hfstnodup : ∀ r : List (Nat × ℚ),
      ((sortDescNaLast (hybridSeries a r
        ((candidates g movies).map Prod.fst) simRow)).map Prod.fst).Nodup := by
    intro r
    have hperm := sortDescNaLast_perm (hybridSeries a r
      ((candidates g movies).map Prod.fst) simRow)
    refine ((hperm.map Prod.fst).nodup_iff).mpr ?_
    rw [hybridSeries_map_fst a r ((candidates g movies).map Prod.fst) simRow
      hlen2]
    exact hlabnodup
  obtain ⟨ij, hijlt, hijv⟩ := List.getElem_of_mem hj
  obtain ⟨ik, hiklt, hikv⟩ := List.getElem_of_mem hk
  obtain ⟨qj, qk, qj', qk', hqj, hqk, hqj', hqk', hdiff⟩ :=
    cfVal_diff_mono pre post j t t' htt hnd hnc hnc' k hkj
  have hmement : ∀ (r : List (Nat × ℚ)) (i : Nat)
      (hilt : i < ((candidates g movies).map Prod.fst).length)
      (hilt2 : i < (minmaxNorm simRow).length),
      (((candidates g movies).map Prod.fst)[i],
        fadd (smul a (cfVal r ((candidates g movies).map Prod.fst)[i]))
          (smul (1 - a) ((minmaxNorm simRow)[i]))) ∈
      sortDescNaLast (hybridSeries a r
        ((candidates g movies).map Prod.fst) simRow) := by
    intro r i hilt hilt2
    apply (sortDescNaLast_perm _).mem_iff.mpr
    have hilt3 : i < (hybridSeries a r
        ((candidates g movies).map Prod.fst) simRow).length := by
      rw [hybridSeries_length a r ((candidates g movies).map Prod.fst)
        simRow hlen2]
      exact hilt
    rw [← hybridSeries_getElem a r ((candidates g movies).map Prod.fst)
      simRow hlen2 i hilt hilt3 hilt2]
    exact List.getElem_mem _
  have hejmem := hmement (pre ++ (j, t) :: post) ij hijlt (hlen2 ▸ hijlt)
  have hekmem := hmement (pre ++ (j, t) :: post) ik hiklt (hlen2 ▸ hiklt)
  have hejmem' := hmement (pre ++ (j, t') :: post) ij hijlt (hlen2 ▸ hijlt)
  have hekmem' := hmement (pre ++ (j, t') :: post) ik hiklt (hlen2 ▸ hiklt)
  rw [hijv, hqj] at hejmem
  rw [hikv, hqk] at hekmem
  rw [hijv, hqj'] at hejmem'
  rw [hikv, hqk'] at hekmem'
  refine ⟨?_, ?_, ?_⟩
  · intro hpos
    have hstrict := strict_of_labelPos_lt
      (sortDescNaLast_sorted (hpairH (pre ++ (j, t) :: post)))
      (hfstnodup (pre ++ (j, t) :: post)) hejmem hekmem hpos
    have hstrict' := strict_recPrec_shift a ha hdiff hstrict
    exact labelPos_lt_of_strict
      (sortDescNaLast_sorted (hpairH (pre ++ (j, t') :: post)))
      (hfstnodup (pre ++ (j, t') :: post)) hejmem' hekmem'
      hstrict'.1 hstrict'.2
  · exact hybrid_recommend_ok_eq g fp ft u title movies preds sim n a
      (u0, pre ++ (j, t) :: post) seed simRow hseed hu hfind hsim hlen
  · exact hybrid_recommend_ok_eq g fp ft u title movies preds' sim n a
      (u0', pre ++ (j, t') :: post) seed simRow hseed hu' hfind hsim hlen

end MovieRec

namespace MovieRec

/-- C8 (counterexample): raising the raw CF score of movie C (label 2)
from 0 to 5 makes the user row [5, 5, 5] constant; the normalization then
yields NaN everywhere, the all-NaN blend keeps catalog order, and C drops
from first place (before the unchanged A) to last (after A) — its rank
relative to an unchanged candidate decreases although alpha = 1/5 > 0. -/
theorem increasing_cf_can_demote_via_nan :
    hybrid_recommend [] (fun _ => none) (fun _ => none) 7 "A"
      [⟨1, "A", ["Action"]⟩, ⟨2, "B", ["Drama"]⟩, ⟨3, "C", ["Action"]⟩]
      [(7, [(0, 5), (1, 5), (2, 0)])]
      [[1, 0, 10], [0, 1, 0], [10, 0, 1]] 10 (1/5) =
      .ok [⟨"C", none, none, some (4/5), 3⟩,
           ⟨"A", none, none, some (7/25), 1⟩,
           ⟨"B", none, none, some (1/5), 2⟩] ∧
    hybrid_recommend [] (fun _ => none) (fun _ => none) 7 "A"
      [⟨1, "A", ["Action"]⟩, ⟨2, "B", ["Drama"]⟩, ⟨3, "C", ["Action"]⟩]
      [(7, [(0, 5), (1, 5), (2, 5)])]
      [[1, 0, 10], [0, 1, 0], [10, 0, 1]] 10 (1/5) =
      .ok [⟨"A", none, none, none, 1⟩, ⟨"B", none, none, none, 2⟩,
           ⟨"C", none, none, none, 3⟩] := by
  constructor
  · norm_num [hybrid_recommend, candidates, withLabels, withLabelsFrom,
      List.find?_cons, minmaxNorm, vMax, vMin, hybridSeries, alignCf, cfVal,
      normRow, sortDescNaLast, List.insertionSort, List.orderedInsert, keyLe,
      fadd, smul, mapLoc, Except.map]
  · norm_num [hybrid_recommend, candidates, withLabels, withLabelsFrom,
      List.find?_cons, minmaxNorm, vMax, vMin, hybridSeries, alignCf, cfVal,
      normRow, sortDescNaLast, List.insertionSort, List.orderedInsert, keyLe,
      fadd, smul, mapLoc, Except.map]

/-- Witness for raising_cf_never_demotes: raising the CF score of movie C
(label 2) from 0 to 4 keeps the row non-constant, and C stays ranked
before the unchanged movie A (label 0). -/
theorem raising_cf_never_demotes_witness :
    labelPos 2 (sortDescNaLast (hybridSeries (1/5) [(0, 5), (1, 5), (2, 4)]
        ((candidates []
          [⟨1, "A", ["Action"]⟩, ⟨2, "B", ["Drama"]⟩,
           ⟨3, "C", ["Action"]⟩]).map Prod.fst) [1, 0, 10])) <
    labelPos 0 (sortDescNaLast (hybridSeries (1/5) [(0, 5), (1, 5), (2, 4)]
        ((candidates []
          [⟨1, "A", ["Action"]⟩, ⟨2, "B", ["Drama"]⟩,
           ⟨3, "C", ["Action"]⟩]).map Prod.fst) [1, 0, 10])) := by
  have hbase := raising_cf_never_demotes [] (fun _ => none) (fun _ => none)
    7 "A" [⟨1, "A", ["Action"]⟩, ⟨2, "B", ["Drama"]⟩, ⟨3, "C", ["Action"]⟩]
    [(7, [(0, 5), (1, 5), (2, 0)])] [(7, [(0, 5), (1, 5), (2, 4)])]
    [[1, 0, 10], [0, 1, 0], [10, 0, 1]] 10 (1/5)
    [(0, 5), (1, 5)] [] 2 0 0 4 (0, ⟨1, "A", ["Action"]⟩) [1, 0, 10] 7 7
    (by norm_num) (by norm_num) (by decide)
    (by norm_num [vMax, vMin]) (by norm_num [vMax, vMin])
    (by decide) (by decide) (by decide) (by decide) (by decide)
    (by rw [minmaxNorm_length]; decide) (by decide) (by decide) (by decide)
  refine hbase.1 ?_
  have hlab : (candidates []
      [⟨1, "A", ["Action"]⟩, ⟨2, "B", ["Drama"]⟩,
       ⟨3, "C", ["Action"]⟩]).map Prod.fst = [0, 1, 2] := by decide
  rw [hlab]
  norm_num [labelPos, List.findIdx_cons, hybridSeries, alignCf, cfVal,
    normRow, minmaxNorm, vMax, vMin, sortDescNaLast, List.insertionSort,
    List.orderedInsert, keyLe, fadd, smul, List.find?_cons]
  decide

end MovieRec
